import Mathlib

/-!
Shallow embedding of `Bio/Align/AlignInfo.py` (class `SummaryInfo` and its
helpers) and proofs about it.

Python floats are modelled as exact rationals, Python strings as `List Char`,
Python dicts as insertion-ordered association lists, and raised exceptions as
`Except Err`.  The external `Alphabet` collaborator (excluded from the spec)
is modelled by the fields of `Alph`: its declared letter set, whether it is a
`Gapped` wrapper and with which gap character, and the base-alphabet class
used by the `isinstance` dispatch in `information_content`
(`AlphKind ∈ {protein, nucleotide, other}`).  The `isinstance` compatibility
check of `_guess_consensus_alphabet` over the records' alphabet objects is
abstracted into the boolean field `alphaConsistent`.
-/

set_option autoImplicit false

namespace AlignInfo

/-- Python exceptions that the module can raise. -/
inductive Err where
  | valueError
  | keyError
  | indexError
  | assertionError
  | nameError
  deriving DecidableEq, Repr

/-- Base-alphabet class, for the `isinstance(base_alpha, ...)` dispatch in
`information_content`. -/
inductive AlphKind where
  | protein
  | nucleotide
  | other
  deriving DecidableEq, Repr

/-- The alignment's `_alphabet` object: declared letters (`None` allowed),
whether it is an `Alphabet.Gapped` wrapper with its `gap_char`, and its base
class. -/
structure Alph where
  letters : Option (List Char)
  gapped : Bool
  gapChar : Char
  kind : AlphKind
  deriving DecidableEq, Repr

/-- A `SeqRecord`: its sequence and its `annotations.get('weight', 1.0)`. -/
structure Rec where
  seq : List Char
  weight : ℚ
  deriving DecidableEq, Repr

/-- The alignment collaborator: ordered records, `get_alignment_length()`,
its `_alphabet`, and whether all record alphabets are compatible with it
(the check performed by `_guess_consensus_alphabet`). -/
structure Alignment where
  records : List Rec
  alignLength : ℕ
  alph : Alph
  alphaConsistent : Bool
  deriving DecidableEq, Repr

/-- Engine state: the alignment plus the mutable cached `ic_vector`. -/
structure Engine where
  align : Alignment
  icVector : List ℚ
  deriving DecidableEq, Repr

/-- Decidable equality of `Except` results, used to evaluate the embedding
on concrete inputs. -/
instance {ε α : Type} [DecidableEq ε] [DecidableEq α] :
    DecidableEq (Except ε α) := fun x y =>
  match x, y with
  | .ok a, .ok b =>
    if h : a = b then .isTrue (by rw [h])
    else .isFalse (by intro hc; cases hc; exact h rfl)
  | .ok _, .error _ => .isFalse (by intro hc; cases hc)
  | .error _, .ok _ => .isFalse (by intro hc; cases hc)
  | .error e, .error f =>
    if h : e = f then .isTrue (by rw [h])
    else .isFalse (by intro hc; cases hc; exact h rfl)

/-! ### Loop combinators with exceptions

Python `for` loops that may `raise` are modelled by these structural
recursions over lists. -/

/-- Fold a fallible step over a list, stopping at the first raised error. -/
def foldlE {σ α ε : Type} (f : σ → α → Except ε σ) : σ → List α → Except ε σ
  | s, [] => .ok s
  | s, x :: xs =>
    match f s x with
    | .ok s' => foldlE f s' xs
    | .error e => .error e

/-- Map a fallible function over a list, stopping at the first raised error. -/
def mapE {α β ε : Type} (f : α → Except ε β) : List α → Except ε (List β)
  | [] => .ok []
  | x :: xs =>
    match f x with
    | .ok y =>
      match mapE f xs with
      | .ok ys => .ok (y :: ys)
      | .error e => .error e
    | .error e => .error e

/-! ### Insertion-ordered counting dictionaries (`atom_dict`) -/

/-- Python `atom_dict[c] = 1` / `atom_dict[c] += 1`: bump the count of `c`,
inserting it at the end when absent (dict insertion order). -/
def bump : List (Char × ℕ) → Char → List (Char × ℕ)
  | [], c => [(c, 1)]
  | p :: d, c => if p.1 = c then (p.1, p.2 + 1) :: d else p :: bump d c

/-- Tally a list of characters into an insertion-ordered count dictionary. -/
def charTally (l : List Char) : List (Char × ℕ) :=
  l.foldl bump []

/-- Lookup in an insertion-ordered count dictionary. -/
def lkN : List (Char × ℕ) → Char → Option ℕ
  | [], _ => none
  | p :: d, c => if p.1 = c then some p.2 else lkN d c

/-- The residues contributing to column `n`: for each record whose sequence
reaches column `n`, its residue there, with `'-'`/`'.'` dropped when
`excludeGaps` is set (the un-gapped consensus variants). -/
def columnResidues (recs : List Rec) (n : ℕ) (excludeGaps : Bool) : List Char :=
  recs.filterMap (fun r =>
    if h : n < r.seq.length then
      let c := r.seq.get ⟨n, h⟩
      if excludeGaps ∧ (c = '-' ∨ c = '.') then none else some c
    else none)

/-- Processing of one contributing residue: bump `atom_dict`, increment
`num_atoms`. -/
def colStep (acc : List (Char × ℕ) × ℕ) (c : Char) : List (Char × ℕ) × ℕ :=
  (bump acc.1 c, acc.2 + 1)

/-- Processing of one record at column `n`: skip it when its sequence is too
short (`if n < len(record.seq)`), and, for the un-gapped variants, when its
residue is a gap. -/
def tallyStep (n : ℕ) (excludeGaps : Bool) (acc : List (Char × ℕ) × ℕ)
    (r : Rec) : List (Char × ℕ) × ℕ :=
  if h : n < r.seq.length then
    let c := r.seq.get ⟨n, h⟩
    if excludeGaps ∧ (c = '-' ∨ c = '.') then acc else colStep acc c
  else acc

/-- The per-column record loop of the consensus builders: build `atom_dict`
and `num_atoms` for column `n`. -/
def tallyColumn (recs : List Rec) (n : ℕ) (excludeGaps : Bool) :
    List (Char × ℕ) × ℕ :=
  recs.foldl (tallyStep n excludeGaps) ([], 0)

/-! ### The `max_atoms` / `max_size` loop -/

/-- One step of the `max_atoms` loop: strict improvement restarts the list,
a tie appends. -/
def maxStep (acc : List Char × ℕ) (p : Char × ℕ) : List Char × ℕ :=
  if acc.2 < p.2 then ([p.1], p.2)
  else if p.2 = acc.2 then (acc.1 ++ [p.1], acc.2)
  else acc

/-- The `max_atoms`/`max_size` computation of `dumb_consensus`: fold over
the insertion-ordered `atom_dict` starting from `([], 0)`. -/
def maxAtoms (d : List (Char × ℕ)) : List Char × ℕ :=
  d.foldl maxStep ([], 0)

/-- Running maximum of the counts of `d`, seeded with `s`. -/
def maxCnt (s : ℕ) (d : List (Char × ℕ)) : ℕ :=
  d.foldl (fun m p => max m p.2) s

/-! ### Consensus builders -/

/-- The per-column emission of `dumb_consensus` / `gap_consensus`: given the
column's `atom_dict` and `num_atoms`. -/
def dumbChar (t : List (Char × ℕ) × ℕ) (thr : ℚ) (amb : Char)
    (reqM : Bool) : Char :=
  if reqM ∧ t.2 = 1 then amb
  else if (maxAtoms t.1).1.length = 1 ∧
      thr ≤ ((maxAtoms t.1).2 : ℚ) / (t.2 : ℚ) then
    (maxAtoms t.1).1.headD amb
  else amb

/-- `SummaryInfo.dumb_consensus(threshold, ambiguous, consensus_alpha,
require_multiple)`.  `alphaGiven` records whether `consensus_alpha` was
supplied; when it is not, `_guess_consensus_alphabet` raises a `ValueError`
on incompatible record alphabets. -/
def dumbConsensus (a : Alignment) (thr : ℚ) (amb : Char) (alphaGiven : Bool)
    (reqM : Bool) : Except Err (List Char) :=
  let s := (List.range a.alignLength).map
    (fun n => dumbChar (tallyColumn a.records n true) thr amb reqM)
  if alphaGiven ∨ a.alphaConsistent then .ok s else .error .valueError

/-- `SummaryInfo.gap_consensus`: as `dumb_consensus` but gaps are tallied
too. -/
def gapConsensus (a : Alignment) (thr : ℚ) (amb : Char) (alphaGiven : Bool)
    (reqM : Bool) : Except Err (List Char) :=
  let s := (List.range a.alignLength).map
    (fun n => dumbChar (tallyColumn a.records n false) thr amb reqM)
  if alphaGiven ∨ a.alphaConsistent then .ok s else .error .valueError

/-- Modelled from the spec: the `Bio.Data.IUPACData.ambiguous_dna_values`
table (not under `src/`), "the standard IUPAC ambiguity-code table": each
IUPAC nucleotide code paired with the sorted string of bases it stands
for. -/
def ambiguousDnaValues : List (Char × List Char) :=
  [('A', ['A']), ('C', ['C']), ('G', ['G']), ('T', ['T']),
   ('M', ['A', 'C']), ('R', ['A', 'G']), ('W', ['A', 'T']),
   ('S', ['C', 'G']), ('Y', ['C', 'T']), ('K', ['G', 'T']),
   ('V', ['A', 'C', 'G']), ('H', ['A', 'C', 'T']), ('D', ['A', 'G', 'T']),
   ('B', ['C', 'G', 'T']), ('X', ['G', 'A', 'T', 'C']),
   ('N', ['G', 'A', 'T', 'C'])]

/-- The inverted table `{v: k for k, v in ambiguous_dna_values.items()}`:
a later entry with the same value wins, as in a Python dict comprehension. -/
def invAmbig (s : List Char) : Option Char :=
  (ambiguousDnaValues.filter (fun p => p.2 = s)).getLast?.map (fun p => p.1)

/-- Insert a character into a (code-point) sorted list. -/
def insertSorted (c : Char) : List Char → List Char
  | [] => [c]
  | x :: xs => if c.val ≤ x.val then c :: x :: xs else x :: insertSorted c xs

/-- Python `sorted` on characters (ascending code points). -/
def sortChars (l : List Char) : List Char :=
  l.foldr insertSorted []

/-- The per-column emission of `iupac_consensus` / `gap_iupac_consensus`:
`max_atoms` is here just the list of distinct residues in first-occurrence
order; a lone residue is uppercased, four distinct residues give `'N'`, and
otherwise the sorted, uppercased concatenation is looked up in the inverted
IUPAC table (a missing key raises). -/
def iupacChar (t : List (Char × ℕ) × ℕ) (amb : Char) (reqM : Bool) :
    Except Err Char :=
  if reqM ∧ t.2 = 1 then .ok amb
  else if (t.1.map Prod.fst).length = 1 then
    .ok ((t.1.map Prod.fst).headD amb).toUpper
  else if (t.1.map Prod.fst).length = 4 then .ok 'N'
  else
    match invAmbig ((sortChars (t.1.map Prod.fst)).map Char.toUpper) with
    | some c => .ok c
    | none => .error .keyError

/-- `SummaryInfo.iupac_consensus(ambiguous, consensus_alpha,
require_multiple)`. -/
def iupacConsensus (a : Alignment) (amb : Char) (alphaGiven : Bool)
    (reqM : Bool) : Except Err (List Char) :=
  match mapE (fun n => iupacChar (tallyColumn a.records n true) amb reqM)
      (List.range a.alignLength) with
  | .ok s =>
    if alphaGiven ∨ a.alphaConsistent then .ok s else .error .valueError
  | .error e => .error e

/-- `SummaryInfo.gap_iupac_consensus`: the function is declared with the
parameter `selfself` (line 255) while its body reads `self` (lines 273,
283, 316).  `self` is neither a parameter, a local, a module global nor a
builtin there, so every call raises `NameError` at
`self.alignment.get_alignment_length()` — before any consensus work — and
the function can never return.  (The first statement, `consensus = ''`,
references nothing and has no observable effect.) -/
def gapIupacConsensus (_a : Alignment) (_amb : Char) (_alphaGiven : Bool)
    (_reqM : Bool) : Except Err (List Char) :=
  .error .nameError

/-! ### Letters of the alignment -/

/-- Append a character unless it is already present. -/
def dedupStep (acc : List Char) (c : Char) : List Char :=
  if c ∈ acc then acc else acc ++ [c]

/-- Keep the first occurrence of each character (Python `dict`/`set`
insertion order for the tally keys). -/
def firstDedup (l : List Char) : List Char :=
  l.foldl dedupStep []

/-- The `sorted(set(...))` computation of `_get_all_letters` over all
record sequences. -/
def buildLetters (recs : List Rec) : List Char :=
  sortChars (firstDedup (recs.foldl (fun acc r => acc ++ r.seq) []))

/-- `SummaryInfo._get_all_letters`: the declared alphabet letters, unless
they are `None` (or a gapped alphabet whose letter string is just its gap
character), in which case the letters actually used are collected. -/
def getAllLetters (a : Alignment) : List Char :=
  match a.alph.letters with
  | some ls =>
    if a.alph.gapped ∧ ls = [a.alph.gapChar] then buildLetters a.records
    else ls
  | none => buildLetters a.records

/-- `SummaryInfo._get_gap_char`: the alphabet's `gap_char`, falling back to
`'-'` when the attribute is missing. -/
def getGapChar (a : Alignment) : Char :=
  if a.alph.gapped then a.alph.gapChar else '-'

/-! ### Replacement dictionaries -/

/-- A replacement dictionary: ordered residue pairs mapped to accumulated
weights, as an insertion-ordered association list. -/
def RepDict : Type := List ((Char × Char) × ℚ)

/-- Python `start_dict[(r1, r2)] += w`: add `w` to the first entry with the
given key, raising `KeyError` when the key is absent. -/
def updateDict : RepDict → Char × Char → ℚ → Except Err RepDict
  | [], _, _ => .error .keyError
  | p :: d, k, w =>
    if p.1 = k then .ok ((p.1, p.2 + w) :: d)
    else
      match updateDict d k w with
      | .ok d' => .ok (p :: d')
      | .error e => .error e

/-- The nested letter loops of `_get_base_replacements`: zero entries for
every ordered pair of non-skipped letters. -/
def baseDict (letters : List Char) (skip : List Char) : RepDict :=
  (letters.map (fun x => letters.filterMap (fun y =>
    if x ∈ skip ∨ y ∈ skip then none else some ((x, y), (0 : ℚ))))).flatten

/-- `SummaryInfo._get_base_replacements(skip_items)`: the zeroed dictionary
together with the final skip list.  The third component is the state of the
caller-supplied list after the call (the Python code appends the gap
character to that very list object when the alphabet is gapped). -/
def getBaseReplacements (a : Alignment) (skipIn : Option (List Char)) :
    RepDict × List Char × Option (List Char) :=
  let skip0 := skipIn.getD []
  let allL := getAllLetters a
  let skipF := if a.alph.gapped then skip0 ++ [a.alph.gapChar] else skip0
  let allL2 := if a.alph.gapped then allL.filter (fun c => c ≠ a.alph.gapChar)
    else allL
  (baseDict allL2 skipF, skipF, skipIn.map (fun _ => skipF))

/-- `SummaryInfo._pair_replacement`: walk both sequences in parallel
(a shorter second sequence silently truncates the walk, the `IndexError`
early return) and accumulate `w1 * w2` for every non-ignored residue pair;
an unknown pair raises (`KeyError` repackaged as `ValueError`). -/
def pairReplacement (s1 s2 : List Char) (w1 w2 : ℚ) (d : RepDict)
    (ignore : List Char) : Except Err RepDict :=
  foldlE (fun d (p : Char × Char) =>
    if p.1 ∉ ignore ∧ p.2 ∉ ignore then
      match updateDict d p (w1 * w2) with
      | .ok d' => .ok d'
      | .error _ => .error .valueError
    else .ok d) d (s1.zip s2)

/-- All ordered index pairs `i < j` of a list, as element pairs, in the
order of the two nested record loops of `replacement_dictionary`. -/
def allPairs {α : Type} : List α → List (α × α)
  | [] => []
  | x :: xs => xs.map (fun y => (x, y)) ++ allPairs xs

/-- `SummaryInfo.replacement_dictionary(skip_chars)`.  The second component
is the caller-visible final state of the `skip_chars` list argument. -/
def replacementDictionary (a : Alignment) (skipIn : Option (List Char)) :
    Except Err RepDict × Option (List Char) :=
  let b := getBaseReplacements a skipIn
  (foldlE (fun d (p : Rec × Rec) =>
      pairReplacement p.1.seq p.2.seq p.1.weight p.2.weight d b.2.1)
    b.1 (allPairs a.records), b.2.2)

/-- Sum of all entries of a replacement dictionary. -/
def dictSum (d : RepDict) : ℚ :=
  (d.map (fun p => p.2)).sum

/-! ### Weighted letter dictionaries and the PSSM -/

/-- `SummaryInfo._get_base_letters`: a zeroed weight dictionary over the
given letters. -/
def getBaseLetters (letters : List Char) : List (Char × ℚ) :=
  letters.map (fun c => (c, (0 : ℚ)))

/-- Add `w` to the first entry with key `c`, `KeyError` when absent. -/
def updateQ : List (Char × ℚ) → Char → ℚ → Except Err (List (Char × ℚ))
  | [], _, _ => .error .keyError
  | p :: d, c, w =>
    if p.1 = c then .ok ((p.1, p.2 + w) :: d)
    else
      match updateQ d c w with
      | .ok d' => .ok (p :: d')
      | .error e => .error e

/-- Remove every occurrence of the given characters (Python
`all_letters.replace(char, '')` in a loop). -/
def removeChars (l : List Char) (chars : List Char) : List Char :=
  chars.foldl (fun acc c => acc.filter (fun x => x ≠ c)) l

/-- Processing of one record in the `pos_specific_score_matrix` column
loop: a record past its end contributes nothing (`this_residue = None` via
the caught `IndexError`), ignored characters are skipped, and a residue
missing from the score dictionary raises (`KeyError` repackaged as
`ValueError`). -/
def pssmStep (n : ℕ) (ignore : List Char) (d : List (Char × ℚ)) (r : Rec) :
    Except Err (List (Char × ℚ)) :=
  match (if h : n < r.seq.length then some (r.seq.get ⟨n, h⟩) else none) with
  | none => .ok d
  | some c =>
    if c ∈ ignore then .ok d
    else
      match updateQ d c r.weight with
      | .ok d' => .ok d'
      | .error _ => .error .valueError

/-- The record loop of `pos_specific_score_matrix` for one column. -/
def pssmColumn (recs : List Rec) (n : ℕ) (ignore : List Char)
    (scoreDict : List (Char × ℚ)) : Except Err (List (Char × ℚ)) :=
  foldlE (pssmStep n ignore) scoreDict recs

/-- `SummaryInfo.pos_specific_score_matrix(axis_seq, chars_to_ignore)`.
The second component is the caller-visible final state of the
`chars_to_ignore` list argument: the gap character is appended to that very
list when the alphabet is gapped (but only after the `assert all_letters`
has passed). -/
def posSpecificScoreMatrix (a : Alignment) (axisSeq : Option (List Char))
    (charsIn : Option (List Char)) :
    Except Err (List (Char × List (Char × ℚ))) × Option (List Char) :=
  let allL := getAllLetters a
  if allL = [] then (.error .assertionError, charsIn)
  else
    let chars0 := charsIn.getD []
    let charsF := if a.alph.gapped then chars0 ++ [a.alph.gapChar] else chars0
    let finalChars := charsIn.map (fun _ => charsF)
    let allL2 := removeChars allL charsF
    match (match axisSeq with
      | some ax =>
        if ax.length = a.alignLength then Except.ok ax
        else Except.error Err.assertionError
      | none => dumbConsensus a (7 / 10) 'X' false false) with
    | .error e => (.error e, finalChars)
    | .ok leftSeq =>
      (mapE (fun n =>
          match pssmColumn a.records n charsF (getBaseLetters allL2) with
          | .ok d => .ok (leftSeq.getD n 'X', d)
          | .error e => .error e)
        (List.range leftSeq.length), finalChars)

/-! ### Information content -/

/-- Random-expected background for a 20-letter protein alphabet. -/
def Protein20Random : ℚ := 1 / 20

/-- Random-expected background for a 4-letter nucleotide alphabet. -/
def Nucleotide4Random : ℚ := 1 / 4

/-- Truthiness of the `e_freq_table` argument: a `FreqTable` is a dict
subclass, so `None` and an empty table are both falsy. -/
def tblTruthy (t : Option (List (Char × ℚ))) : Bool :=
  match t with
  | some l => !l.isEmpty
  | none => false

/-- Truthiness of `random_expected` (`None` and `0.0` are falsy). -/
def randTruthy (r : Option ℚ) : Bool :=
  match r with
  | some v => decide (v ≠ 0)
  | none => false

/-- Lookup in an association list with rational values. -/
def lookupQ : List (Char × ℚ) → Char → Option ℚ
  | [], _ => none
  | p :: d, c => if p.1 = c then some p.2 else lookupQ d c

/-- The record loop of `_get_letter_freqs`: accumulate weighted counts and
the total.  `record.seq[residue_num]` is indexed inside a `try` block that
catches only `KeyError`, so a record shorter than the column raises an
uncaught `IndexError`; a residue missing from the letter dictionary raises
(`KeyError` repackaged as `ValueError`). -/
def freqCountLoop (recs : List Rec) (n : ℕ) (toIgnore : List Char)
    (freq0 : List (Char × ℚ)) : Except Err (List (Char × ℚ) × ℚ) :=
  foldlE (fun (acc : List (Char × ℚ) × ℚ) r =>
    if h : n < r.seq.length then
      let c := r.seq.get ⟨n, h⟩
      if c ∈ toIgnore then .ok acc
      else
        match updateQ acc.1 c r.weight with
        | .ok d' => .ok (d', acc.2 + r.weight)
        | .error _ => .error .valueError
    else .error .indexError) (freq0, 0) recs

/-- The normalization loop of `_get_letter_freqs` for a column with nonzero
total: with a pseudo-count the counts are blended with the expected
frequency (`e_freq_table[letter]` raises a raw `KeyError` when absent,
e.g. for the gap character), otherwise they are divided by the total. -/
def normalizeFreqs (freq : List (Char × ℚ)) (total : ℚ) (pseudo : ℚ)
    (efft : Option (List (Char × ℚ))) (randomE : Option ℚ) :
    Except Err (List (Char × ℚ)) :=
  mapE (fun (p : Char × ℚ) =>
    if pseudo ≠ 0 ∧ (randTruthy randomE ∨ tblTruthy efft) then
      match (if tblTruthy efft then lookupQ (efft.getD []) p.1
        else some (randomE.getD 0)) with
      | some adjustFreq =>
        .ok (p.1, (p.2 + adjustFreq * pseudo) / (total + pseudo))
      | none => .error .keyError
    else .ok (p.1, p.2 / total)) freq

/-- `SummaryInfo._get_letter_freqs`. -/
def getLetterFreqs (recs : List Rec) (n : ℕ) (letters : List Char)
    (toIgnore : List Char) (pseudo : ℚ) (efft : Option (List (Char × ℚ)))
    (randomE : Option ℚ) (gapChar : Char) :
    Except Err (List (Char × ℚ)) :=
  let freq0 := getBaseLetters letters
  if pseudo < 0 then .error .valueError
  else
    match freqCountLoop recs n toIgnore freq0 with
    | .error e => .error e
    | .ok (freq, total) =>
      if tblTruthy efft ∧ freq.any (fun p =>
          p.1 ≠ gapChar ∧ (lookupQ (efft.getD []) p.1).isNone) then
        .error .valueError
      else if total = 0 then
        if freq.any (fun p => p.2 ≠ 0) then .error .assertionError
        else .ok freq
      else normalizeFreqs freq total pseudo efft randomE

/-- `SummaryInfo._get_column_info_content`: sum, over the observed letters,
of `obs * log(obs / expected) / log(log_base)`, skipping the gap character
and non-positive ratios.  `logFn` models `math.log`. -/
def getColumnInfoContent (logFn : ℚ → ℚ) (obsFreq : List (Char × ℚ))
    (efft : Option (List (Char × ℚ))) (logBase : ℚ) (randomE : Option ℚ)
    (gapChar : Char) : Except Err ℚ :=
  if tblTruthy efft ∧ obsFreq.any (fun p =>
      p.1 ≠ gapChar ∧ (lookupQ (efft.getD []) p.1).isNone) then
    .error .valueError
  else
    .ok (obsFreq.foldl (fun tot p =>
      let innerLog : ℚ :=
        if p.1 ≠ gapChar then
          if tblTruthy efft then p.2 / ((lookupQ (efft.getD []) p.1).getD 0)
          else p.2 / (randomE.getD 0)
        else 0
      if 0 < innerLog then tot + p.2 * logFn innerLog / logFn logBase
      else tot) 0)

/-- The effective end of the column range: `end`, defaulting to the length
of the first record's sequence (`IndexError` on an empty alignment is
handled at the call site). -/
def effEnd (a : Alignment) (endOpt : Option ℕ) : ℕ :=
  endOpt.getD (match a.records.head? with
    | some r => r.seq.length
    | none => 0)

/-- The `random_expected` determination of `information_content`: with a
falsy `e_freq_table`, a protein alphabet gives 0.05 and a nucleotide
alphabet 0.25; anything else raises a `ValueError`. -/
def resolveRandom (a : Alignment) (efft : Option (List (Char × ℚ))) :
    Except Err (Option ℚ) :=
  if tblTruthy efft then .ok none
  else
    match a.alph.kind with
    | .protein => .ok (some Protein20Random)
    | .nucleotide => .ok (some Nucleotide4Random)
    | .other => .error .valueError

/-- The working letters of `information_content`: all letters minus the
explicitly ignored characters. -/
def resolveLetters (a : Alignment) (chars : List Char) : List Char :=
  removeChars (getAllLetters a) chars

/-- One column's contribution: letter frequencies, then the column score. -/
def icColumnScore (logFn : ℚ → ℚ) (a : Alignment) (letters : List Char)
    (chars : List Char) (pseudo : ℚ) (efft : Option (List (Char × ℚ)))
    (randomE : Option ℚ) (logBase : ℚ) (n : ℕ) : Except Err ℚ :=
  match getLetterFreqs a.records n letters chars pseudo efft randomE
      (getGapChar a) with
  | .ok f => getColumnInfoContent logFn f efft logBase randomE (getGapChar a)
  | .error e => .error e

/-- Lookup in the `info_content` dictionary (keyed by column number). -/
def lookupN : List (ℕ × ℚ) → ℕ → Option ℚ
  | [], _ => none
  | p :: d, k => if p.1 = k then some p.2 else lookupN d k

/-- The column loop of `information_content`: the `info_content` dictionary
as an insertion-ordered association list keyed by column number. -/
def icLoop (logFn : ℚ → ℚ) (a : Alignment) (letters chars : List Char)
    (pseudo : ℚ) (efft : Option (List (Char × ℚ))) (randomE : Option ℚ)
    (logBase : ℚ) (start e : ℕ) : Except Err (List (ℕ × ℚ)) :=
  mapE (fun n =>
    match icColumnScore logFn a letters chars pseudo efft randomE
        logBase n with
    | .ok s => .ok (n, s)
    | .error err => .error err) (List.range' start (e - start))

/-- The total (`sum(info_content.values())`) and the new `ic_vector`
(built, as in the code, by looking the columns `i + start` back up in the
`info_content` dictionary). -/
def icFromList (start : ℕ) (infoList : List (ℕ × ℚ)) : ℚ × List ℚ :=
  ((infoList.map (fun p => p.2)).sum,
    (List.range infoList.length).map
      (fun i => (lookupN infoList (i + start)).getD 0))

/-- The pure core of `SummaryInfo.information_content`. -/
def icCore (logFn : ℚ → ℚ) (a : Alignment) (start : ℕ) (endOpt : Option ℕ)
    (efft : Option (List (Char × ℚ))) (logBase : ℚ)
    (charsOpt : Option (List Char)) (pseudo : ℚ) :
    Except Err (ℚ × List ℚ) :=
  match a.records.head? with
  | none => .error .indexError
  | some r0 =>
    if r0.seq.length < effEnd a endOpt then .error .valueError
    else
      match resolveRandom a efft with
      | .error err => .error err
      | .ok randomE =>
        match icLoop logFn a (resolveLetters a (charsOpt.getD []))
            (charsOpt.getD []) pseudo efft randomE logBase start
            (effEnd a endOpt) with
        | .error err => .error err
        | .ok infoList => .ok (icFromList start infoList)

/-- `SummaryInfo.information_content`: on success the cached `ic_vector` is
overwritten (the reset `self.ic_vector = []` only happens after the column
loop); a raised error leaves the engine state untouched. -/
def informationContent (logFn : ℚ → ℚ) (eng : Engine) (start : ℕ)
    (endOpt : Option ℕ) (efft : Option (List (Char × ℚ))) (logBase : ℚ)
    (charsOpt : Option (List Char)) (pseudo : ℚ) : Engine × Except Err ℚ :=
  match icCore logFn eng.align start endOpt efft logBase charsOpt pseudo with
  | .ok (t, v) => ({ eng with icVector := v }, .ok t)
  | .error e => (eng, .error e)

/-! ### Concrete example alignments (used by witnesses and counterexamples)
and the spec-as-stated IUPAC column rule -/

/-- A generic ungapped nucleotide alphabet with undeclared letters. -/
def dnaAlph : Alph := ⟨none, false, '-', .nucleotide⟩

/-- Two identical records `AC`. -/
def exAC : Alignment := ⟨[⟨['A', 'C'], 1⟩, ⟨['A', 'C'], 1⟩], 2, dnaAlph, true⟩

/-- A single record `A`. -/
def exSingleA : Alignment := ⟨[⟨['A'], 1⟩], 1, dnaAlph, true⟩

/-- One column containing the four distinct symbols `A`, `C`, `G`, `N`. -/
def exACGN : Alignment :=
  ⟨[⟨['A'], 1⟩, ⟨['C'], 1⟩, ⟨['G'], 1⟩, ⟨['N'], 1⟩], 1, dnaAlph, true⟩

/-- One column containing `A` and `G`. -/
def exAG : Alignment := ⟨[⟨['A'], 1⟩, ⟨['G'], 1⟩], 1, dnaAlph, true⟩

/-- One column consisting of a single gap. -/
def exGap : Alignment := ⟨[⟨['-'], 1⟩], 1, dnaAlph, true⟩

/-- Modelled from the spec's words (the claim as stated): emit a lone symbol
uppercased; emit `N` when the symbol set is exactly the four nucleotide
bases; otherwise look the sorted, uppercased concatenation up in the
standard IUPAC ambiguity table (no code exists for other four-symbol
sets). -/
def iupacColumnPerSpec (atoms : List Char) (amb : Char) : Option Char :=
  if atoms.length = 1 then some (atoms.headD amb).toUpper
  else if sortChars (atoms.map Char.toUpper) = ['A', 'C', 'G', 'T'] then
    some 'N'
  else invAmbig ((sortChars atoms).map Char.toUpper)

/-- The alignment for the C4 witness: three gap-free records of length 2. -/
def exRep : Alignment :=
  ⟨[⟨['A', 'C'], 1⟩, ⟨['A', 'G'], 1⟩, ⟨['C', 'C'], 1⟩], 2, dnaAlph, true⟩

/-- A single-record alignment `AA` over the generic nucleotide alphabet. -/
def exAA : Alignment := ⟨[⟨['A', 'A'], 1⟩], 2, dnaAlph, true⟩

/-- The alignment `["AA", "A"]` with a record shorter than the alignment. -/
def exAA1 : Alignment := ⟨[⟨['A', 'A'], 1⟩, ⟨['A'], 1⟩], 2, dnaAlph, true⟩

/-- A single-record alignment over a gapped alphabet. -/
def exGapped : Alignment :=
  ⟨[⟨['A'], 1⟩], 1, ⟨none, true, '-', .nucleotide⟩, true⟩

/-! ## Lemmas about the loop combinators -/

theorem mapE_ok_length {α β ε : Type} {f : α → Except ε β} :
    ∀ {l : List α} {ys : List β}, mapE f l = .ok ys → ys.length = l.length := by
  intro l
  induction l with
  | nil => intro ys h; cases h; rfl
  | cons x xs ih =>
    intro ys h
    cases hf : f x with
    | error e => simp [mapE, hf] at h
    | ok y =>
      cases hm : mapE f xs with
      | error e => simp [mapE, hf, hm] at h
      | ok ys' =>
        simp only [mapE, hf, hm] at h
        cases h
        simp [ih hm]

theorem mapE_ok_get {α β ε : Type} {f : α → Except ε β} :
    ∀ {l : List α} {ys : List β}, mapE f l = .ok ys →
      ∀ i (h1 : i < l.length) (h2 : i < ys.length),
        f (l.get ⟨i, h1⟩) = .ok (ys.get ⟨i, h2⟩) := by
  intro l
  induction l with
  | nil => intro ys h i h1 h2; exact absurd h1 (Nat.not_lt_zero i)
  | cons x xs ih =>
    intro ys h i h1 h2
    cases hf : f x with
    | error e => simp [mapE, hf] at h
    | ok y =>
      cases hm : mapE f xs with
      | error e => simp [mapE, hf, hm] at h
      | ok ys' =>
        simp only [mapE, hf, hm] at h
        cases h
        cases i with
        | zero => simpa using hf
        | succ j => exact ih hm j (Nat.lt_of_succ_lt_succ h1) (Nat.lt_of_succ_lt_succ h2)

theorem mapE_ok_of_mem {α β ε : Type} {f : α → Except ε β} :
    ∀ {l : List α} {ys : List β}, mapE f l = .ok ys →
      ∀ x ∈ l, ∃ y, f x = .ok y := by
  intro l
  induction l with
  | nil => intro ys _ x hx; cases hx
  | cons z xs ih =>
    intro ys h x hx
    cases hf : f z with
    | error e => simp [mapE, hf] at h
    | ok y =>
      cases hm : mapE f xs with
      | error e => simp [mapE, hf, hm] at h
      | ok ys' =>
        rcases List.mem_cons.1 hx with rfl | hx'
        · exact ⟨y, hf⟩
        · exact ih hm x hx'

theorem foldlE_ok_of_mem {σ α ε : Type} {f : σ → α → Except ε σ}
    (P : α → Prop) (hP : ∀ s x, (∃ s', f s x = .ok s') → P x) :
    ∀ {l : List α} {s s' : σ}, foldlE f s l = .ok s' → ∀ x ∈ l, P x := by
  intro l
  induction l with
  | nil => intro s s' _ x hx; cases hx
  | cons z xs ih =>
    intro s s' h x hx
    cases hf : f s z with
    | error e => simp [foldlE, hf] at h
    | ok s1 =>
      simp only [foldlE, hf] at h
      rcases List.mem_cons.1 hx with rfl | hx'
      · exact hP s x ⟨s1, hf⟩
      · exact ih h x hx'

/-! ## Lemmas about `bump`, `charTally` and `firstDedup` -/

theorem bump_keys (d : List (Char × ℕ)) (c : Char) :
    (bump d c).map Prod.fst =
      if c ∈ d.map Prod.fst then d.map Prod.fst else d.map Prod.fst ++ [c] := by
  induction d with
  | nil => simp [bump]
  | cons p d ih =>
    by_cases hp : p.1 = c
    · simp [bump, hp]
    · simp only [bump, if_neg hp, List.map_cons]
      rw [ih]
      by_cases hc : c ∈ d.map Prod.fst
      · simp [hc, Ne.symm hp]
      · simp [hc, Ne.symm hp]

theorem bump_lk (d : List (Char × ℕ)) (c x : Char) :
    lkN (bump d c) x =
      if x = c then some ((lkN d x).getD 0 + 1) else lkN d x := by
  induction d with
  | nil =>
    by_cases hx : x = c
    · simp [bump, lkN, hx]
    · have hcx : ¬c = x := fun h => hx h.symm
      simp [bump, lkN, hx, hcx]
  | cons p d ih =>
    by_cases hp : p.1 = c
    · by_cases hx : x = c
      · simp [bump, lkN, hp, hx]
      · have hpx : ¬p.1 = x := fun h => hx (h.symm.trans hp)
        have hcx : ¬c = x := fun h => hx h.symm
        simp [bump, lkN, hp, hx, hpx, hcx]
    · by_cases hpx : p.1 = x
      · have hx : ¬x = c := fun h => hp (hpx.trans h)
        simp [bump, lkN, hp, hpx, hx]
      · simp [bump, lkN, hp, hpx, ih]

theorem foldl_bump_keys (l : List Char) :
    ∀ d : List (Char × ℕ),
      ((l.foldl bump d).map Prod.fst) = l.foldl dedupStep (d.map Prod.fst) := by
  induction l with
  | nil => intro d; rfl
  | cons c l ih =>
    intro d
    show ((l.foldl bump (bump d c)).map Prod.fst) = l.foldl dedupStep (dedupStep (d.map Prod.fst) c)
    rw [ih (bump d c), bump_keys, dedupStep]

theorem charTally_keys (l : List Char) :
    (charTally l).map Prod.fst = firstDedup l := by
  simpa using foldl_bump_keys l []

theorem foldl_bump_lk (l : List Char) :
    ∀ (d : List (Char × ℕ)) (x : Char),
      lkN (l.foldl bump d) x =
        if x ∈ l then some ((lkN d x).getD 0 + l.count x) else lkN d x := by
  induction l with
  | nil => intro d x; simp
  | cons c l ih =>
    intro d x
    show lkN (l.foldl bump (bump d c)) x = _
    rw [ih (bump d c) x, bump_lk]
    by_cases hx : x = c
    · subst hx
      by_cases hl : x ∈ l
      · simp [hl, List.count_cons_self]
        omega
      · simp [hl, List.count_cons_self, List.count_eq_zero_of_not_mem hl]
    · by_cases hl : x ∈ l
      · simp [hx, hl, List.count_cons_of_ne hx]
      · simp [hx, hl]

theorem charTally_lk (l : List Char) (x : Char) :
    lkN (charTally l) x = if x ∈ l then some (l.count x) else none := by
  have := foldl_bump_lk l [] x
  simpa [charTally, lkN] using this

theorem firstDedup_sub_aux (l : List Char) :
    ∀ acc x, x ∈ l.foldl dedupStep acc ↔ x ∈ acc ∨ x ∈ l := by
  induction l with
  | nil => intro acc x; simp
  | cons c l ih =>
    intro acc x
    show x ∈ l.foldl dedupStep (dedupStep acc c) ↔ _
    rw [ih]
    unfold dedupStep
    by_cases hc : c ∈ acc
    · simp only [if_pos hc, List.mem_cons]
      constructor
      · rintro (h | h)
        · exact Or.inl h
        · exact Or.inr (Or.inr h)
      · rintro (h | rfl | h)
        · exact Or.inl h
        · exact Or.inl hc
        · exact Or.inr h
    · simp only [if_neg hc, List.mem_append, List.mem_singleton, List.mem_cons]
      tauto

theorem firstDedup_mem (l : List Char) (x : Char) :
    x ∈ firstDedup l ↔ x ∈ l := by
  have := firstDedup_sub_aux l [] x
  simpa [firstDedup] using this

theorem firstDedup_nodup_aux (l : List Char) :
    ∀ acc, acc.Nodup → (l.foldl dedupStep acc).Nodup := by
  induction l with
  | nil => intro acc h; exact h
  | cons c l ih =>
    intro acc h
    apply ih
    unfold dedupStep
    by_cases hc : c ∈ acc
    · simpa [hc] using h
    · simp only [if_neg hc]
      refine List.Nodup.append h (List.nodup_singleton c) ?_
      intro a ha hb
      rw [List.mem_singleton] at hb
      subst hb
      exact hc ha

theorem firstDedup_nodup (l : List Char) : (firstDedup l).Nodup :=
  firstDedup_nodup_aux l [] List.nodup_nil

theorem lkN_eq_some_of_mem {d : List (Char × ℕ)} (hd : (d.map Prod.fst).Nodup)
    {x : Char} {v : ℕ} (h : (x, v) ∈ d) : lkN d x = some v := by
  induction d with
  | nil => cases h
  | cons p d ih =>
    rcases List.mem_cons.1 h with rfl | h'
    · simp [lkN]
    · have hp : p.1 ≠ x := by
        intro he
        have hm : x ∈ d.map Prod.fst := List.mem_map.2 ⟨(x, v), h', rfl⟩
        rw [List.map_cons, List.nodup_cons] at hd
        exact hd.1 (he ▸ hm)
      simp only [lkN, if_neg hp]
      exact ih (by rw [List.map_cons, List.nodup_cons] at hd; exact hd.2) h'

theorem mem_of_lkN_eq_some {d : List (Char × ℕ)} {x : Char} {v : ℕ}
    (h : lkN d x = some v) : (x, v) ∈ d := by
  induction d with
  | nil => cases h
  | cons p d ih =>
    by_cases hp : p.1 = x
    · simp only [lkN, if_pos hp] at h
      cases h
      have hpe : (x, p.2) = p := by
        rw [← hp]
      rw [hpe]
      exact List.mem_cons_self p d
    · simp only [lkN, if_neg hp] at h
      exact List.mem_cons_of_mem _ (ih h)

theorem charTally_nodup_keys (l : List Char) :
    ((charTally l).map Prod.fst).Nodup := by
  rw [charTally_keys]; exact firstDedup_nodup l

theorem charTally_mem (l : List Char) (x : Char) (v : ℕ) :
    (x, v) ∈ charTally l ↔ x ∈ l ∧ v = l.count x := by
  constructor
  · intro h
    have hk := lkN_eq_some_of_mem (charTally_nodup_keys l) h
    rw [charTally_lk] at hk
    by_cases hx : x ∈ l
    · rw [if_pos hx] at hk
      exact ⟨hx, (Option.some.injEq _ _ ▸ hk).symm⟩
    · rw [if_neg hx] at hk; cases hk
  · rintro ⟨hx, rfl⟩
    apply mem_of_lkN_eq_some
    rw [charTally_lk, if_pos hx]

/-! ## `tallyColumn` in terms of `columnResidues` -/

theorem foldl_tallyStep (n : ℕ) (g : Bool) :
    ∀ (recs : List Rec) (acc : List (Char × ℕ) × ℕ),
      recs.foldl (tallyStep n g) acc =
        (columnResidues recs n g).foldl colStep acc := by
  intro recs
  induction recs with
  | nil => intro acc; rfl
  | cons r recs ih =>
    intro acc
    show (recs.foldl (tallyStep n g) (tallyStep n g acc r)) = _
    have hstep : tallyStep n g acc r =
        (if h : n < r.seq.length then
          (if g ∧ (r.seq.get ⟨n, h⟩ = '-' ∨ r.seq.get ⟨n, h⟩ = '.') then acc
            else colStep acc (r.seq.get ⟨n, h⟩))
        else acc) := rfl
    have hres : columnResidues (r :: recs) n g =
        (if h : n < r.seq.length then
          (if g ∧ (r.seq.get ⟨n, h⟩ = '-' ∨ r.seq.get ⟨n, h⟩ = '.') then
            columnResidues recs n g
           else r.seq.get ⟨n, h⟩ :: columnResidues recs n g)
        else columnResidues recs n g) := by
      by_cases h : n < r.seq.length
      · by_cases hg : g ∧ (r.seq.get ⟨n, h⟩ = '-' ∨ r.seq.get ⟨n, h⟩ = '.')
        · rw [dif_pos h, if_pos hg]
          simp only [columnResidues, List.filterMap_cons]
          rw [dif_pos h, if_pos hg]
        · rw [dif_pos h, if_neg hg]
          simp only [columnResidues, List.filterMap_cons]
          rw [dif_pos h, if_neg hg]
      · rw [dif_neg h]
        simp only [columnResidues, List.filterMap_cons]
        rw [dif_neg h]
    by_cases h : n < r.seq.length
    · by_cases hg : g ∧ (r.seq.get ⟨n, h⟩ = '-' ∨ r.seq.get ⟨n, h⟩ = '.')
      · rw [hstep, dif_pos h, if_pos hg, ih, hres, dif_pos h, if_pos hg]
      · rw [hstep, dif_pos h, if_neg hg, ih, hres, dif_pos h, if_neg hg]
        rfl
    · rw [hstep, dif_neg h, ih, hres, dif_neg h]

theorem foldl_colStep (res : List Char) :
    ∀ (d : List (Char × ℕ)) (k : ℕ),
      res.foldl colStep (d, k) = (res.foldl bump d, k + res.length) := by
  induction res with
  | nil => intro d k; simp
  | cons c res ih =>
    intro d k
    show res.foldl colStep (bump d c, k + 1) = _
    rw [ih, List.foldl_cons]
    have hk : k + 1 + res.length = k + (c :: res).length := by
      simp only [List.length_cons]
      omega
    rw [hk]

theorem tallyColumn_eq (recs : List Rec) (n : ℕ) (g : Bool) :
    tallyColumn recs n g =
      (charTally (columnResidues recs n g), (columnResidues recs n g).length) := by
  rw [tallyColumn, foldl_tallyStep]
  have := foldl_colStep (columnResidues recs n g) [] 0
  rw [this]
  simp [charTally]

/-! ## The `max_atoms` loop characterized by a filter -/

theorem maxCnt_cons (s : ℕ) (p : Char × ℕ) (d : List (Char × ℕ)) :
    maxCnt s (p :: d) = maxCnt (max s p.2) d := rfl

theorem le_maxCnt : ∀ (d : List (Char × ℕ)) (s : ℕ), s ≤ maxCnt s d := by
  intro d
  induction d with
  | nil => intro s; exact le_refl s
  | cons p d ih =>
    intro s
    exact le_trans (le_max_left s p.2) (ih (max s p.2))

theorem mem_le_maxCnt (p : Char × ℕ) :
    ∀ (d : List (Char × ℕ)) (s : ℕ), p ∈ d → p.2 ≤ maxCnt s d := by
  intro d
  induction d with
  | nil => intro s h; cases h
  | cons q d ih =>
    intro s h
    rcases List.mem_cons.1 h with rfl | h'
    · exact le_trans (le_max_right s p.2) (le_maxCnt d _)
    · exact ih _ h'

theorem maxCnt_le {c : ℕ} :
    ∀ (d : List (Char × ℕ)) (s : ℕ), s ≤ c → (∀ p ∈ d, p.2 ≤ c) →
      maxCnt s d ≤ c := by
  intro d
  induction d with
  | nil => intro s hs _; exact hs
  | cons p d ih =>
    intro s hs hp
    rw [maxCnt_cons]
    exact ih _ (max_le hs (hp p (List.mem_cons_self p d)))
      (fun q hq => hp q (List.mem_cons_of_mem p hq))

theorem maxFold_snd :
    ∀ (d : List (Char × ℕ)) (ma : List Char) (s : ℕ),
      (d.foldl maxStep (ma, s)).2 = maxCnt s d := by
  intro d
  induction d with
  | nil => intro ma s; rfl
  | cons p d ih =>
    intro ma s
    rw [List.foldl_cons, maxCnt_cons]
    by_cases h1 : s < p.2
    · rw [show maxStep (ma, s) p = ([p.1], p.2) by simp [maxStep, h1]]
      rw [ih, max_eq_right (le_of_lt h1)]
    · by_cases h2 : p.2 = s
      · rw [show maxStep (ma, s) p = (ma ++ [p.1], s) by simp [maxStep, h1, h2]]
        rw [ih, max_eq_left (le_of_eq h2)]
      · rw [show maxStep (ma, s) p = (ma, s) by simp [maxStep, h1, h2]]
        rw [ih, max_eq_left (le_of_not_lt h1)]

theorem maxFold_fst :
    ∀ (d : List (Char × ℕ)) (ma : List Char) (s : ℕ),
      (d.foldl maxStep (ma, s)).1 =
        (if maxCnt s d = s then ma else []) ++
          (d.filter (fun p => p.2 = maxCnt s d)).map Prod.fst := by
  intro d
  induction d with
  | nil => intro ma s; simp [maxCnt]
  | cons p d ih =>
    intro ma s
    rw [List.foldl_cons, maxCnt_cons]
    by_cases h1 : s < p.2
    · rw [show maxStep (ma, s) p = ([p.1], p.2) by simp [maxStep, h1]]
      rw [max_eq_right (le_of_lt h1), ih [p.1] p.2]
      have hM : p.2 ≤ maxCnt p.2 d := le_maxCnt d p.2
      have hsM : ¬maxCnt p.2 d = s := by omega
      rw [if_neg hsM]
      by_cases h3 : maxCnt p.2 d = p.2
      · simp [List.filter_cons, h3]
      · have h2' : ¬(p.2 = maxCnt p.2 d) := fun h => h3 h.symm
        simp [List.filter_cons, h2', h3]
    · by_cases h2 : p.2 = s
      · rw [show maxStep (ma, s) p = (ma ++ [p.1], s) by simp [maxStep, h1, h2]]
        rw [max_eq_left (le_of_eq h2), ih (ma ++ [p.1]) s]
        by_cases hM : maxCnt s d = s
        · rw [if_pos hM, if_pos hM]
          have hp2 : p.2 = maxCnt s d := by omega
          simp [List.filter_cons, hp2]
        · rw [if_neg hM, if_neg hM]
          have hs : s ≤ maxCnt s d := le_maxCnt d s
          have hp2 : ¬(p.2 = maxCnt s d) := by omega
          simp [List.filter_cons, hp2]
      · rw [show maxStep (ma, s) p = (ma, s) by simp [maxStep, h1, h2]]
        rw [max_eq_left (le_of_not_lt h1), ih ma s]
        have hlt : p.2 < s := lt_of_le_of_ne (le_of_not_lt h1) h2
        have hs : s ≤ maxCnt s d := le_maxCnt d s
        have hp2 : ¬(p.2 = maxCnt s d) := by omega
        simp [List.filter_cons, hp2]

theorem maxAtoms_eq (d : List (Char × ℕ)) :
    maxAtoms d =
      ((d.filter (fun p => p.2 = maxCnt 0 d)).map Prod.fst, maxCnt 0 d) := by
  unfold maxAtoms
  rw [Prod.ext_iff]
  refine ⟨?_, maxFold_snd d [] 0⟩
  rw [maxFold_fst d [] 0]
  by_cases h : maxCnt 0 d = 0
  · simp [h]
  · simp [h]

/-! ## Filter singletons -/

theorem filter_eq_singleton {α : Type} [DecidableEq α] (P : α → Bool) :
    ∀ (l : List α) (a : α), a ∈ l → P a = true →
      (∀ b ∈ l, b ≠ a → P b = false) → l.count a = 1 →
      l.filter P = [a] := by
  intro l
  induction l with
  | nil => intro a ha; cases ha
  | cons x l ih =>
    intro a ha hPa hother hcount
    by_cases hx : x = a
    · subst hx
      have hl : x ∉ l := by
        intro hmem
        have h1 : l.count x ≥ 1 := List.one_le_count_iff.2 hmem
        have h2 : (x :: l).count x = l.count x + 1 := List.count_cons_self x l
        omega
      rw [List.filter_cons, if_pos (by simp [hPa])]
      have hres : l.filter P = [] := by
        rw [List.filter_eq_nil_iff]
        intro b hb
        have hba : b ≠ x := fun he => hl (he ▸ hb)
        rw [hother b (List.mem_cons_of_mem x hb) hba]
        simp
      rw [hres]
    · have hx' : x ≠ a := hx
      have hmem : a ∈ l := by
        rcases List.mem_cons.1 ha with rfl | h'
        · exact absurd rfl hx
        · exact h'
      rw [List.filter_cons,
        if_neg (by rw [hother x (List.mem_cons_self x l) hx']; simp)]
      apply ih a hmem hPa
        (fun b hb hba => hother b (List.mem_cons_of_mem x hb) hba)
      have h2 : (x :: l).count a = l.count a :=
        List.count_cons_of_ne (Ne.symm hx') l
      omega

theorem map_eq_singleton {α β : Type} {f : α → β} :
    ∀ {l : List α} {b : β}, l.map f = [b] → ∃ a, l = [a] ∧ f a = b := by
  intro l
  match l with
  | [] => intro b h; cases h
  | [a] =>
    intro b h
    simp only [List.map_cons, List.map_nil] at h
    exact ⟨a, rfl, by cases h; rfl⟩
  | a :: a' :: l => intro b h; cases h

/-! ## Semantics of the per-column majority vote -/

theorem dumbChar_unique (res : List Char) (thr : ℚ) (amb : Char) (reqM : Bool)
    (x : Char) (hx : x ∈ res)
    (hmax : ∀ y ∈ res, y ≠ x → res.count y < res.count x)
    (hthr : thr ≤ (res.count x : ℚ) / (res.length : ℚ))
    (hreq : ¬(reqM = true ∧ res.length = 1)) :
    dumbChar (charTally res, res.length) thr amb reqM = x := by
  have hmem : (x, res.count x) ∈ charTally res :=
    (charTally_mem res x (res.count x)).2 ⟨hx, rfl⟩
  have hMle : res.count x ≤ maxCnt 0 (charTally res) :=
    mem_le_maxCnt (x, res.count x) (charTally res) 0 hmem
  have hMge : maxCnt 0 (charTally res) ≤ res.count x := by
    apply maxCnt_le (charTally res) 0 (Nat.zero_le _)
    intro p hp
    have hp' : (p.1, p.2) ∈ charTally res := hp
    rcases (charTally_mem res p.1 p.2).1 hp' with ⟨hp1, hp2⟩
    by_cases hpx : p.1 = x
    · rw [hp2, hpx]
    · rw [hp2]
      exact le_of_lt (hmax p.1 hp1 hpx)
  have hM : maxCnt 0 (charTally res) = res.count x := le_antisymm hMge hMle
  have hfilter : (charTally res).filter
      (fun p => p.2 = maxCnt 0 (charTally res)) = [(x, res.count x)] := by
    apply filter_eq_singleton _ _ _ hmem
    · simp [hM]
    · intro b hb hba
      have hb' : (b.1, b.2) ∈ charTally res := hb
      rcases (charTally_mem res b.1 b.2).1 hb' with ⟨hb1, hb2⟩
      by_cases hbx : b.1 = x
      · exfalso
        apply hba
        have hb2' : b.2 = res.count x := by rw [hb2, hbx]
        calc b = (b.1, b.2) := rfl
        _ = (x, res.count x) := by rw [hbx, hb2']
      · have hne : b.2 ≠ maxCnt 0 (charTally res) := by
          rw [hb2, hM]
          exact ne_of_lt (hmax b.1 hb1 hbx)
        simp [hne]
    · exact List.count_eq_one_of_mem
        (List.Nodup.of_map Prod.fst (charTally_nodup_keys res)) hmem
  unfold dumbChar
  rw [if_neg hreq, maxAtoms_eq, hfilter]
  simp [hM, hthr]

theorem dumbChar_req (t : List (Char × ℕ) × ℕ) (thr : ℚ) (amb : Char)
    (h : t.2 = 1) : dumbChar t thr amb true = amb := by
  unfold dumbChar
  rw [if_pos ⟨rfl, h⟩]

theorem dumbChar_amb (res : List Char) (thr : ℚ) (amb : Char) (reqM : Bool)
    (hno : ¬∃ x, x ∈ res ∧ (∀ y ∈ res, y ≠ x → res.count y < res.count x) ∧
      thr ≤ (res.count x : ℚ) / (res.length : ℚ)) :
    dumbChar (charTally res, res.length) thr amb reqM = amb := by
  unfold dumbChar
  by_cases hreq : reqM = true ∧ res.length = 1
  · rw [if_pos hreq]
  · rw [if_neg hreq, maxAtoms_eq]
    by_cases hcond : (((charTally res).filter
        (fun p => p.2 = maxCnt 0 (charTally res))).map Prod.fst).length = 1 ∧
        thr ≤ ((maxCnt 0 (charTally res) : ℕ) : ℚ) / ((res.length : ℕ) : ℚ)
    · exfalso
      apply hno
      rcases hcond with ⟨hlen, hthr⟩
      rcases List.length_eq_one.1 hlen with ⟨c, hc⟩
      rcases map_eq_singleton hc with ⟨p, hp, hpc⟩
      have hpmem : p ∈ (charTally res).filter
          (fun q => q.2 = maxCnt 0 (charTally res)) := by
        rw [hp]
        exact List.mem_cons_self p []
      have hpd := (List.mem_filter.1 hpmem).1
      have hpM : p.2 = maxCnt 0 (charTally res) := by
        have := (List.mem_filter.1 hpmem).2
        simpa using this
      have hpd' : (p.1, p.2) ∈ charTally res := hpd
      rcases (charTally_mem res p.1 p.2).1 hpd' with ⟨hp1, hp2⟩
      refine ⟨p.1, hp1, ?_, ?_⟩
      · intro y hy hyx
        have hymem : (y, res.count y) ∈ charTally res :=
          (charTally_mem res y (res.count y)).2 ⟨hy, rfl⟩
        have hyle : res.count y ≤ maxCnt 0 (charTally res) :=
          mem_le_maxCnt (y, res.count y) (charTally res) 0 hymem
        have hyne : res.count y ≠ maxCnt 0 (charTally res) := by
          intro hcontr
          have hymem2 : (y, res.count y) ∈ (charTally res).filter
              (fun q => q.2 = maxCnt 0 (charTally res)) := by
            rw [List.mem_filter]
            exact ⟨hymem, by simp [hcontr]⟩
          rw [hp] at hymem2
          have : (y, res.count y) = p := by simpa using hymem2
          exact hyx (by rw [← this])
        rw [← hp2, hpM]
        omega
      · rw [← hp2, hpM]
        exact hthr
    · rw [if_neg hcond]

theorem dumbChar_const (res : List Char) (thr : ℚ) (amb : Char) (r : Char)
    (hne : res ≠ []) (hall : ∀ c ∈ res, c = r) (hthr : thr ≤ 1) :
    dumbChar (charTally res, res.length) thr amb false = r := by
  have hr : r ∈ res := by
    cases res with
    | nil => exact absurd rfl hne
    | cons c l => rw [← hall c (List.mem_cons_self c l)]; exact List.mem_cons_self c l
  have hcount : res.count r = res.length :=
    List.count_eq_length.2 (fun b hb => ((hall b hb).symm))
  apply dumbChar_unique res thr amb false r hr
  · intro y hy hyr
    exact absurd (hall y hy) hyr
  · rw [hcount]
    have hlen : 0 < res.length := List.length_pos.2 hne
    have : ((res.length : ℚ)) ≠ 0 := by
      simp only [ne_eq, Nat.cast_eq_zero]
      omega
    rw [div_self this]
    exact hthr
  · rintro ⟨hfalse, -⟩
    cases hfalse

/-! ## Extraction lemmas for the consensus builders -/

theorem dumbConsensus_ok {a : Alignment} {thr : ℚ} {amb : Char}
    {ag reqM : Bool} {s : List Char}
    (h : dumbConsensus a thr amb ag reqM = .ok s) :
    s = (List.range a.alignLength).map
      (fun n => dumbChar (tallyColumn a.records n true) thr amb reqM) := by
  unfold dumbConsensus at h
  by_cases hc : ag = true ∨ a.alphaConsistent = true
  · rw [if_pos hc] at h
    cases h
    rfl
  · rw [if_neg hc] at h
    cases h

theorem gapConsensus_ok {a : Alignment} {thr : ℚ} {amb : Char}
    {ag reqM : Bool} {s : List Char}
    (h : gapConsensus a thr amb ag reqM = .ok s) :
    s = (List.range a.alignLength).map
      (fun n => dumbChar (tallyColumn a.records n false) thr amb reqM) := by
  unfold gapConsensus at h
  by_cases hc : ag = true ∨ a.alphaConsistent = true
  · rw [if_pos hc] at h
    cases h
    rfl
  · rw [if_neg hc] at h
    cases h

theorem iupacConsensus_ok {a : Alignment} {amb : Char} {ag reqM : Bool}
    {s : List Char} (h : iupacConsensus a amb ag reqM = .ok s) :
    mapE (fun n => iupacChar (tallyColumn a.records n true) amb reqM)
      (List.range a.alignLength) = .ok s := by
  unfold iupacConsensus at h
  cases hm : mapE (fun n => iupacChar (tallyColumn a.records n true) amb reqM)
      (List.range a.alignLength) with
  | error e => rw [hm] at h; cases h
  | ok s0 =>
    rw [hm] at h
    have h' : (if ag = true ∨ a.alphaConsistent = true then
        (Except.ok s0 : Except Err (List Char)) else .error .valueError) =
        .ok s := h
    by_cases hc : ag = true ∨ a.alphaConsistent = true
    · rw [if_pos hc] at h'
      cases h'
      rfl
    · rw [if_neg hc] at h'
      cases h'

theorem dumbConsensus_get {a : Alignment} {thr : ℚ} {amb : Char}
    {ag reqM : Bool} {s : List Char}
    (h : dumbConsensus a thr amb ag reqM = .ok s) (n : ℕ)
    (hn : n < s.length) :
    s.get ⟨n, hn⟩ = dumbChar (tallyColumn a.records n true) thr amb reqM := by
  have hs := dumbConsensus_ok h
  subst hs
  simp

theorem iupacConsensus_get {a : Alignment} {amb : Char} {ag reqM : Bool}
    {s : List Char} (h : iupacConsensus a amb ag reqM = .ok s) (n : ℕ)
    (hn : n < s.length) :
    iupacChar (tallyColumn a.records n true) amb reqM =
      .ok (s.get ⟨n, hn⟩) := by
  have hm := iupacConsensus_ok h
  have hlen := mapE_ok_length hm
  have hn' : n < (List.range a.alignLength).length := by
    rw [← hlen]
    exact hn
  have := mapE_ok_get hm n hn' hn
  simpa using this














/-! ## Claim C1 -/

/-- Claim C1 (settling theorem for the code bug): `dumb_consensus`,
`gap_consensus` and `iupac_consensus` return, whenever they return at all,
a consensus sequence whose length equals the alignment's column count; but
the fourth builder, `gap_iupac_consensus`, never returns a consensus on any
input: its parameter is `selfself` while its body reads `self`, so every
call raises `NameError` — the claim's statement about it cannot be
exhibited by the code. -/
theorem claim1_thm (a : Alignment) (thr : ℚ) (amb : Char) (ag reqM : Bool) :
    (∀ s, dumbConsensus a thr amb ag reqM = .ok s →
      s.length = a.alignLength) ∧
    (∀ s, gapConsensus a thr amb ag reqM = .ok s →
      s.length = a.alignLength) ∧
    (∀ s, iupacConsensus a amb ag reqM = .ok s →
      s.length = a.alignLength) ∧
    gapIupacConsensus a amb ag reqM = .error .nameError := by
  refine ⟨fun s h => ?_, fun s h => ?_, fun s h => ?_, rfl⟩
  · rw [dumbConsensus_ok h]
    simp
  · rw [gapConsensus_ok h]
    simp
  · rw [mapE_ok_length (iupacConsensus_ok h)]
    simp

/-- Witness for C1's theorem at the concrete alignment `exAC`: the three
working builders succeed with the right length, and `gap_iupac_consensus`
raises `NameError`. -/
theorem claim1_witness :
    (dumbConsensus exAC (7 / 10) 'X' true false = .ok ['A', 'C'] ∧
      (['A', 'C'] : List Char).length = exAC.alignLength) ∧
    (gapConsensus exAC (7 / 10) 'X' true false = .ok ['A', 'C'] ∧
      (['A', 'C'] : List Char).length = exAC.alignLength) ∧
    (iupacConsensus exAC 'X' true false = .ok ['A', 'C'] ∧
      (['A', 'C'] : List Char).length = exAC.alignLength) ∧
    gapIupacConsensus exAC 'X' true false = .error .nameError := by
  have h1 : dumbConsensus exAC (7 / 10) 'X' true false = .ok ['A', 'C'] := by
    with_unfolding_all decide
  have h2 : gapConsensus exAC (7 / 10) 'X' true false = .ok ['A', 'C'] := by
    with_unfolding_all decide
  have h3 : iupacConsensus exAC 'X' true false = .ok ['A', 'C'] := by
    with_unfolding_all decide
  exact ⟨⟨h1, (claim1_thm exAC (7 / 10) 'X' true false).1 _ h1⟩,
    ⟨h2, (claim1_thm exAC (7 / 10) 'X' true false).2.1 _ h2⟩,
    ⟨h3, (claim1_thm exAC (7 / 10) 'X' true false).2.2.1 _ h3⟩,
    (claim1_thm exAC (7 / 10) 'X' true false).2.2.2⟩

/-! ## Claim C2 -/

/-- Claim C2 counterexample: with `require_multiple` set, a single-record
column `A` has a unique maximal symbol whose ratio `1/1` meets the default
threshold `0.7`, yet `dumb_consensus` emits the placeholder `X`, not `A`.
The claim as stated (with no `require_multiple` exception in its first
sentence) is therefore false. -/
theorem claim2_counterexample :
    dumbConsensus exSingleA (7 / 10) 'X' true true = .ok ['X'] ∧
    columnResidues exSingleA.records 0 true = ['A'] ∧
    (∀ y ∈ columnResidues exSingleA.records 0 true, y ≠ 'A' →
      (columnResidues exSingleA.records 0 true).count y <
        (columnResidues exSingleA.records 0 true).count 'A') ∧
    (7 : ℚ) / 10 ≤ ((columnResidues exSingleA.records 0 true).count 'A' : ℚ) /
      ((columnResidues exSingleA.records 0 true).length : ℚ) ∧
    ('X' : Char) ≠ 'A' := by
  refine ⟨?_, ?_, ?_, ?_, ?_⟩
  · with_unfolding_all decide
  · with_unfolding_all decide
  · with_unfolding_all decide
  · with_unfolding_all decide
  · with_unfolding_all decide

/-- Claim C2 (amended): in `dumb_consensus`, for every column, unless
`require_multiple` is set and exactly one residue contributed: if exactly
one symbol attains the maximum unit-weighted count and that count divided
by the column's total non-gap count is `>= threshold`, that symbol is
emitted, and otherwise the placeholder is emitted; if `require_multiple` is
set and exactly one residue contributed, the placeholder is emitted.  In
particular a column whose non-gap residues are all one residue `r` (with at
least one contributor, `require_multiple` unset) yields `r` for every
threshold `<= 1`. -/
theorem claim2_thm (a : Alignment) (thr : ℚ) (amb : Char) (ag reqM : Bool)
    (s : List Char) (h : dumbConsensus a thr amb ag reqM = .ok s)
    (n : ℕ) (hn : n < s.length) :
    (reqM = true ∧ (columnResidues a.records n true).length = 1 →
      s.get ⟨n, hn⟩ = amb) ∧
    (¬(reqM = true ∧ (columnResidues a.records n true).length = 1) →
      (∀ x, x ∈ columnResidues a.records n true →
        (∀ y ∈ columnResidues a.records n true, y ≠ x →
          (columnResidues a.records n true).count y <
            (columnResidues a.records n true).count x) →
        thr ≤ ((columnResidues a.records n true).count x : ℚ) /
          ((columnResidues a.records n true).length : ℚ) →
        s.get ⟨n, hn⟩ = x) ∧
      ((¬∃ x, x ∈ columnResidues a.records n true ∧
          (∀ y ∈ columnResidues a.records n true, y ≠ x →
            (columnResidues a.records n true).count y <
              (columnResidues a.records n true).count x) ∧
          thr ≤ ((columnResidues a.records n true).count x : ℚ) /
            ((columnResidues a.records n true).length : ℚ)) →
        s.get ⟨n, hn⟩ = amb)) ∧
    (reqM = false → thr ≤ 1 → ∀ r, columnResidues a.records n true ≠ [] →
      (∀ c ∈ columnResidues a.records n true, c = r) →
      s.get ⟨n, hn⟩ = r) := by
  have hchar := dumbConsensus_get h n hn
  rw [tallyColumn_eq] at hchar
  refine ⟨?_, fun hreq => ⟨?_, ?_⟩, ?_⟩
  · rintro ⟨hreq, hone⟩
    subst hreq
    rw [hchar]
    exact dumbChar_req _ thr amb hone
  · intro x hx hmax hthr
    rw [hchar]
    exact dumbChar_unique _ thr amb reqM x hx hmax hthr hreq
  · intro hno
    rw [hchar]
    exact dumbChar_amb _ thr amb reqM hno
  · intro hreq hthr r hne hall
    rw [hchar]
    subst hreq
    exact dumbChar_const _ thr amb r hne hall hthr

/-- Witness for the amended C2 on `exAC`: the all-`A` first column yields
`A`. -/
theorem claim2_witness :
    (dumbConsensus exAC (7 / 10) 'X' true false = .ok ['A', 'C']) ∧
    (['A', 'C'] : List Char).get ⟨0, by decide⟩ = 'A' := by
  have h : dumbConsensus exAC (7 / 10) 'X' true false = .ok ['A', 'C'] := by
    with_unfolding_all decide
  refine ⟨h, ?_⟩
  exact (claim2_thm exAC (7 / 10) 'X' true false ['A', 'C'] h 0
    (by decide)).2.2 rfl (by with_unfolding_all decide) 'A'
    (by with_unfolding_all decide) (by with_unfolding_all decide)

/-! ## Claim C10 -/

theorem columnResidues_all_gaps {a : Alignment} {n : ℕ}
    (hgap : ∀ r ∈ a.records, ∀ hr : n < r.seq.length,
      r.seq.get ⟨n, hr⟩ = '-' ∨ r.seq.get ⟨n, hr⟩ = '.') :
    columnResidues a.records n true = [] := by
  rw [columnResidues, List.filterMap_eq_nil_iff]
  intro r hr
  by_cases h : n < r.seq.length
  · rw [dif_pos h, if_pos ⟨rfl, hgap r hr h⟩]
  · rw [dif_neg h]

/-- Claim C10: for every column of the alignment consisting entirely of gap
symbols (`-` or `.`), `dumb_consensus` emits the ambiguous placeholder at
that column without error: the tally is empty, no symbol attains a maximum,
and no division is performed. -/
theorem claim10_thm (a : Alignment) (thr : ℚ) (amb : Char) (ag reqM : Bool)
    (s : List Char) (h : dumbConsensus a thr amb ag reqM = .ok s)
    (n : ℕ) (hn : n < s.length)
    (hgap : ∀ r ∈ a.records, ∀ hr : n < r.seq.length,
      r.seq.get ⟨n, hr⟩ = '-' ∨ r.seq.get ⟨n, hr⟩ = '.') :
    s.get ⟨n, hn⟩ = amb := by
  have hchar := dumbConsensus_get h n hn
  rw [tallyColumn_eq, columnResidues_all_gaps hgap] at hchar
  rw [hchar]
  unfold dumbChar charTally maxAtoms
  simp

/-- Witness for C10 on `exGap` (a single all-gap column). -/
theorem claim10_witness :
    (dumbConsensus exGap (7 / 10) 'X' true false = .ok ['X']) ∧
    (['X'] : List Char).get ⟨0, by decide⟩ = 'X' := by
  have h : dumbConsensus exGap (7 / 10) 'X' true false = .ok ['X'] := by
    with_unfolding_all decide
  refine ⟨h, ?_⟩
  exact claim10_thm exGap (7 / 10) 'X' true false ['X'] h 0 (by decide)
    (by with_unfolding_all decide)

/-! ## Claim C3 -/



/-- Claim C3 counterexample: a column whose distinct symbols are
`{A, C, G, N}` — four symbols, but not the four bases.  The claim as stated
requires the IUPAC table code for `"ACGN"`, which does not exist, while
`iupac_consensus` emits `N` (the code tests `len(max_atoms) == 4`, not that
the set is `{A, C, G, T}`). -/
theorem claim3_counterexample :
    iupacConsensus exACGN 'X' true false = .ok ['N'] ∧
    firstDedup (columnResidues exACGN.records 0 true) =
      ['A', 'C', 'G', 'N'] ∧
    sortChars (['A', 'C', 'G', 'N'].map Char.toUpper) ≠
      ['A', 'C', 'G', 'T'] ∧
    iupacColumnPerSpec ['A', 'C', 'G', 'N'] 'X' = none := by
  refine ⟨?_, ?_, ?_, ?_⟩
  · with_unfolding_all decide
  · with_unfolding_all decide
  · with_unfolding_all decide
  · with_unfolding_all decide

/-- Claim C3 (amended): in `iupac_consensus`, for every column: if
`require_multiple` is set and exactly one residue contributed, the
ambiguous placeholder is emitted; otherwise a single distinct non-gap
symbol is emitted uppercased, exactly four distinct symbols (whatever they
are) give `N`, and in every other case the emitted character is the IUPAC
ambiguity code of the sorted, uppercased concatenation of the distinct
symbols (a missing code raises an error instead). -/
theorem claim3_thm (a : Alignment) (amb : Char) (ag reqM : Bool)
    (s : List Char) (h : iupacConsensus a amb ag reqM = .ok s)
    (n : ℕ) (hn : n < s.length) :
    (reqM = true ∧ (columnResidues a.records n true).length = 1 →
      s.get ⟨n, hn⟩ = amb) ∧
    (¬(reqM = true ∧ (columnResidues a.records n true).length = 1) →
      (∀ x, firstDedup (columnResidues a.records n true) = [x] →
        s.get ⟨n, hn⟩ = x.toUpper) ∧
      ((firstDedup (columnResidues a.records n true)).length = 4 →
        s.get ⟨n, hn⟩ = 'N') ∧
      ((firstDedup (columnResidues a.records n true)).length ≠ 1 →
        (firstDedup (columnResidues a.records n true)).length ≠ 4 →
        invAmbig ((sortChars
          (firstDedup (columnResidues a.records n true))).map
          Char.toUpper) = some (s.get ⟨n, hn⟩))) := by
  have hchar := iupacConsensus_get h n hn
  rw [tallyColumn_eq] at hchar
  have hkeys : (charTally (columnResidues a.records n true)).map Prod.fst =
      firstDedup (columnResidues a.records n true) :=
    charTally_keys (columnResidues a.records n true)
  unfold iupacChar at hchar
  rw [hkeys] at hchar
  constructor
  · rintro ⟨hr1, hr2⟩
    rw [if_pos ⟨hr1, hr2⟩] at hchar
    exact (Except.ok.inj hchar).symm
  · intro hreq
    rw [if_neg hreq] at hchar
    refine ⟨?_, ?_, ?_⟩
    · intro x hx
      rw [hx] at hchar
      rw [if_pos (by simp)] at hchar
      have h3 := Except.ok.inj hchar
      rw [← h3]
      simp
    · intro h4
      by_cases h1 : (firstDedup (columnResidues a.records n true)).length = 1
      · omega
      · rw [if_neg h1, if_pos h4] at hchar
        exact (Except.ok.inj hchar).symm
    · intro h1 h4
      rw [if_neg h1, if_neg h4] at hchar
      cases hinv : invAmbig ((sortChars
          (firstDedup (columnResidues a.records n true))).map
          Char.toUpper) with
      | none => rw [hinv] at hchar; cases hchar
      | some c =>
        rw [hinv] at hchar
        have hchar2 : (Except.ok c : Except Err Char) =
            .ok (s.get ⟨n, hn⟩) := hchar
        exact congrArg _ (Except.ok.inj hchar2)

/-- Witness for the amended C3 on `exAG` (distinct symbols `{A, G}` give
`R`). -/
theorem claim3_witness :
    (iupacConsensus exAG 'X' true false = .ok ['R']) ∧
    invAmbig ((sortChars (firstDedup
      (columnResidues exAG.records 0 true))).map Char.toUpper) =
      some ((['R'] : List Char).get ⟨0, by decide⟩) := by
  have h : iupacConsensus exAG 'X' true false = .ok ['R'] := by
    with_unfolding_all decide
  refine ⟨h, ?_⟩
  exact ((claim3_thm exAG 'X' true false ['R'] h 0 (by decide)).2
    (by with_unfolding_all decide)).2.2
    (by with_unfolding_all decide) (by with_unfolding_all decide)

/-! ## Claim C4: the replacement dictionary -/

theorem updateDict_ok {k : Char × Char} (w : ℚ) :
    ∀ d : RepDict, k ∈ d.map Prod.fst →
      ∃ d', updateDict d k w = .ok d' ∧ dictSum d' = dictSum d + w ∧
        d'.map Prod.fst = d.map Prod.fst := by
  intro d
  induction d with
  | nil => intro h; cases h
  | cons p d ih =>
    intro h
    by_cases hp : p.1 = k
    · refine ⟨(p.1, p.2 + w) :: d, ?_, ?_, ?_⟩
      · unfold updateDict
        rw [if_pos hp]
      · simp [dictSum]
        ring
      · simp
    · have hk : k ∈ d.map Prod.fst := by
        rcases List.mem_map.1 h with ⟨q, hq, hqk⟩
        rcases List.mem_cons.1 hq with rfl | hq'
        · exact absurd hqk hp
        · exact List.mem_map.2 ⟨q, hq', hqk⟩
      rcases ih hk with ⟨d', hup, hsum, hkeys⟩
      refine ⟨p :: d', ?_, ?_, ?_⟩
      · unfold updateDict
        rw [if_neg hp, hup]
      · simp [dictSum] at hsum ⊢
        rw [hsum]
        ring
      · simp [hkeys]

theorem pairFold_ok (w : ℚ) :
    ∀ (ps : List (Char × Char)) (d : RepDict),
      (∀ p ∈ ps, p ∈ d.map Prod.fst) →
      ∃ d', foldlE (fun d (p : Char × Char) =>
          if p.1 ∉ ([] : List Char) ∧ p.2 ∉ ([] : List Char) then
            match updateDict d p w with
            | .ok d' => .ok d'
            | .error _ => .error Err.valueError
          else .ok d) d ps = .ok d' ∧
        dictSum d' = dictSum d + (ps.length : ℚ) * w ∧
        d'.map Prod.fst = d.map Prod.fst := by
  intro ps
  induction ps with
  | nil =>
    intro d _
    exact ⟨d, rfl, by simp, rfl⟩
  | cons p ps ih =>
    intro d hmem
    rcases updateDict_ok w d (hmem p (List.mem_cons_self p ps))
      with ⟨d1, hup, hsum1, hkeys1⟩
    rcases ih d1 (fun q hq => hkeys1 ▸ hmem q (List.mem_cons_of_mem p hq))
      with ⟨d', hfold, hsum2, hkeys2⟩
    refine ⟨d', ?_, ?_, hkeys2.trans hkeys1⟩
    · unfold foldlE
      rw [if_pos ⟨List.not_mem_nil p.1, List.not_mem_nil p.2⟩, hup]
      exact hfold
    · rw [hsum2, hsum1]
      simp
      ring

theorem pairReplacement_ok (s1 s2 : List Char) (w1 w2 : ℚ) (d : RepDict)
    (hmem : ∀ p ∈ s1.zip s2, p ∈ d.map Prod.fst) :
    ∃ d', pairReplacement s1 s2 w1 w2 d [] = .ok d' ∧
      dictSum d' = dictSum d + ((s1.zip s2).length : ℚ) * (w1 * w2) ∧
      d'.map Prod.fst = d.map Prod.fst :=
  pairFold_ok (w1 * w2) (s1.zip s2) d hmem

theorem mem_allPairs {α : Type} :
    ∀ {l : List α} {x y : α}, (x, y) ∈ allPairs l → x ∈ l ∧ y ∈ l := by
  intro l
  induction l with
  | nil => intro x y h; cases h
  | cons z l ih =>
    intro x y h
    unfold allPairs at h
    rcases List.mem_append.1 h with h1 | h2
    · rcases List.mem_map.1 h1 with ⟨b, hb, hbe⟩
      cases hbe
      exact ⟨List.mem_cons_self z l, List.mem_cons_of_mem z hb⟩
    · rcases ih h2 with ⟨hx, hy⟩
      exact ⟨List.mem_cons_of_mem z hx, List.mem_cons_of_mem z hy⟩

theorem length_allPairs {α : Type} :
    ∀ l : List α, (allPairs l).length = l.length.choose 2 := by
  intro l
  induction l with
  | nil => rfl
  | cons x l ih =>
    unfold allPairs
    rw [List.length_append, List.length_map, ih]
    rw [List.length_cons, Nat.choose_succ_succ l.length 1]
    rw [Nat.choose_one_right]

theorem mem_baseDict_keys {letters : List Char} {x y : Char}
    (hx : x ∈ letters) (hy : y ∈ letters) :
    (x, y) ∈ (baseDict letters []).map Prod.fst := by
  apply List.mem_map.2
  refine ⟨((x, y), 0), ?_, rfl⟩
  unfold baseDict
  apply List.mem_flatten.2
  refine ⟨letters.filterMap (fun z =>
    if x ∈ ([] : List Char) ∨ z ∈ ([] : List Char) then none
    else some ((x, z), (0 : ℚ))), ?_, ?_⟩
  · exact List.mem_map.2 ⟨x, hx, rfl⟩
  · apply List.mem_filterMap.2
    exact ⟨y, hy, by rw [if_neg (by simp)]⟩

theorem dictSum_baseDict (letters skip : List Char) :
    dictSum (baseDict letters skip) = 0 := by
  apply List.sum_eq_zero
  intro q hq
  rcases List.mem_map.1 hq with ⟨p, hp, hpq⟩
  unfold baseDict at hp
  rcases List.mem_flatten.1 hp with ⟨l, hl, hpl⟩
  rcases List.mem_map.1 hl with ⟨z, _, hze⟩
  rw [← hze] at hpl
  rcases List.mem_filterMap.1 hpl with ⟨y, _, hy⟩
  by_cases hc : z ∈ skip ∨ y ∈ skip
  · rw [if_pos hc] at hy
    cases hy
  · rw [if_neg hc] at hy
    cases hy
    rw [← hpq]

theorem mem_concatSeqs {recs : List Rec} {r : Rec} {c : Char}
    (hr : r ∈ recs) (hc : c ∈ r.seq) :
    c ∈ recs.foldl (fun acc r => acc ++ r.seq) [] := by
  have key : ∀ (l : List Rec) (acc : List Char),
      c ∈ acc ∨ (∃ r ∈ l, c ∈ r.seq) →
      c ∈ l.foldl (fun acc r => acc ++ r.seq) acc := by
    intro l
    induction l with
    | nil =>
      intro acc h
      rcases h with h | ⟨r', hr', _⟩
      · exact h
      · cases hr'
    | cons q l ih =>
      intro acc h
      apply ih
      rcases h with h | ⟨r', hr', hcr⟩
      · exact Or.inl (List.mem_append.2 (Or.inl h))
      · rcases List.mem_cons.1 hr' with rfl | hr''
        · exact Or.inl (List.mem_append.2 (Or.inr hcr))
        · exact Or.inr ⟨r', hr'', hcr⟩
  exact key recs [] (Or.inr ⟨r, hr, hc⟩)

theorem insertSorted_perm (c : Char) :
    ∀ l : List Char, (insertSorted c l).Perm (c :: l) := by
  intro l
  induction l with
  | nil => exact List.Perm.refl _
  | cons x l ih =>
    unfold insertSorted
    by_cases h : c.val ≤ x.val
    · rw [if_pos h]
    · rw [if_neg h]
      exact List.Perm.trans (List.Perm.cons x ih) (List.Perm.swap c x l)

theorem sortChars_perm : ∀ l : List Char, (sortChars l).Perm l := by
  intro l
  induction l with
  | nil => exact List.Perm.refl _
  | cons c l ih =>
    show (insertSorted c (l.foldr insertSorted [])).Perm (c :: l)
    exact List.Perm.trans (insertSorted_perm c (l.foldr insertSorted []))
      (List.Perm.cons c ih)

theorem mem_buildLetters {recs : List Rec} {r : Rec} {c : Char}
    (hr : r ∈ recs) (hc : c ∈ r.seq) : c ∈ buildLetters recs := by
  unfold buildLetters
  rw [(sortChars_perm _).mem_iff, firstDedup_mem]
  exact mem_concatSeqs hr hc

theorem getAllLetters_generic {a : Alignment} (hlet : a.alph.letters = none) :
    getAllLetters a = buildLetters a.records := by
  unfold getAllLetters
  rw [hlet]

theorem repFold_ok (L : ℕ) (base : RepDict) :
    ∀ (pairs : List (Rec × Rec)) (d : RepDict),
      d.map Prod.fst = base.map Prod.fst →
      (∀ pr ∈ pairs, (pr.1.seq.zip pr.2.seq).length = L ∧
        pr.1.weight = 1 ∧ pr.2.weight = 1 ∧
        (∀ q ∈ pr.1.seq.zip pr.2.seq, q ∈ base.map Prod.fst)) →
      ∃ d', foldlE (fun d (pr : Rec × Rec) =>
          pairReplacement pr.1.seq pr.2.seq pr.1.weight pr.2.weight d []) d
          pairs = .ok d' ∧
        dictSum d' = dictSum d + (pairs.length : ℚ) * (L : ℚ) ∧
        d'.map Prod.fst = base.map Prod.fst := by
  intro pairs
  induction pairs with
  | nil =>
    intro d hkeys _
    exact ⟨d, rfl, by simp, hkeys⟩
  | cons pr pairs ih =>
    intro d hkeys hcond
    rcases hcond pr (List.mem_cons_self pr pairs) with ⟨hL, hw1, hw2, hmem⟩
    rcases pairReplacement_ok pr.1.seq pr.2.seq pr.1.weight pr.2.weight d
      (fun q hq => hkeys ▸ hmem q hq) with ⟨d1, hrep, hsum1, hkeys1⟩
    rcases ih d1 (hkeys1.trans hkeys)
      (fun q hq => hcond q (List.mem_cons_of_mem pr hq))
      with ⟨d', hfold, hsum2, hkeys2⟩
    refine ⟨d', ?_, ?_, hkeys2⟩
    · unfold foldlE
      rw [hrep]
      exact hfold
    · rw [hsum2, hsum1, hL, hw1, hw2]
      simp
      ring

/-- Claim C4: for an alignment of `m` aligned gap-free records of equal
length `L` with unit weights (over a generic ungapped alphabet and with no
skip characters), `replacement_dictionary` succeeds and the sum of all its
entries equals `L * C(m, 2)` — each unordered record pair contributes
`weight_i * weight_j = 1` at each of the `L` positions. -/
theorem claim4_thm (a : Alignment) (L : ℕ)
    (hlen : ∀ r ∈ a.records, r.seq.length = L)
    (hw : ∀ r ∈ a.records, r.weight = 1)
    (hgf : ∀ r ∈ a.records, ∀ c ∈ r.seq, c ≠ '-' ∧ c ≠ '.')
    (hlet : a.alph.letters = none)
    (hgap : a.alph.gapped = false) :
    ∃ d, (replacementDictionary a none).1 = .ok d ∧
      dictSum d = ((L * a.records.length.choose 2 : ℕ) : ℚ) := by
  have hbase : getBaseReplacements a none =
      (baseDict (getAllLetters a) [], [],
        (none : Option (List Char)).map (fun _ => [])) := by
    unfold getBaseReplacements
    rw [hgap]
    simp
  have hrd : (replacementDictionary a none).1 =
      foldlE (fun d (pr : Rec × Rec) =>
        pairReplacement pr.1.seq pr.2.seq pr.1.weight pr.2.weight d [])
        (baseDict (getAllLetters a) []) (allPairs a.records) := by
    unfold replacementDictionary
    rw [hbase]
  have hcond : ∀ pr ∈ allPairs a.records,
      (pr.1.seq.zip pr.2.seq).length = L ∧
      pr.1.weight = 1 ∧ pr.2.weight = 1 ∧
      (∀ q ∈ pr.1.seq.zip pr.2.seq,
        q ∈ (baseDict (getAllLetters a) []).map Prod.fst) := by
    intro pr hpr
    have hmem : (pr.1, pr.2) ∈ allPairs a.records := hpr
    rcases mem_allPairs hmem with ⟨h1, h2⟩
    refine ⟨?_, hw pr.1 h1, hw pr.2 h2, ?_⟩
    · rw [List.length_zip, hlen pr.1 h1, hlen pr.2 h2]
      exact Nat.min_self L
    · intro q hq
      have hq' : (q.1, q.2) ∈ pr.1.seq.zip pr.2.seq := hq
      have hq1 : q.1 ∈ pr.1.seq := (List.of_mem_zip hq').1
      have hq2 : q.2 ∈ pr.2.seq := (List.of_mem_zip hq').2
      rw [getAllLetters_generic hlet]
      exact mem_baseDict_keys (mem_buildLetters h1 hq1)
        (mem_buildLetters h2 hq2)
  rcases repFold_ok L (baseDict (getAllLetters a) []) (allPairs a.records)
      (baseDict (getAllLetters a) []) rfl hcond with ⟨d, hfold, hsum, _⟩
  refine ⟨d, by rw [hrd]; exact hfold, ?_⟩
  rw [hsum, dictSum_baseDict, length_allPairs]
  push_cast
  ring



/-- Witness for C4 on `exRep` (`m = 3`, `L = 2`, total `2 * 3 = 6`). -/
theorem claim4_witness :
    (∀ r ∈ exRep.records, r.seq.length = 2) ∧
    (∀ r ∈ exRep.records, r.weight = 1) ∧
    (∀ r ∈ exRep.records, ∀ c ∈ r.seq, c ≠ '-' ∧ c ≠ '.') ∧
    (∃ d, (replacementDictionary exRep none).1 = .ok d ∧
      dictSum d = ((2 * (exRep.records.length.choose 2) : ℕ) : ℚ)) := by
  refine ⟨?_, ?_, ?_, ?_⟩
  · with_unfolding_all decide
  · with_unfolding_all decide
  · with_unfolding_all decide
  · exact claim4_thm exRep 2 (by with_unfolding_all decide)
      (by with_unfolding_all decide) (by with_unfolding_all decide)
      (by with_unfolding_all decide) (by with_unfolding_all decide)

/-! ## Elimination lemmas for `information_content` -/

theorem exceptCases {ε α : Type} (x : Except ε α) :
    (∃ e, x = .error e) ∨ (∃ v, x = .ok v) := by
  cases x with
  | error e => exact Or.inl ⟨e, rfl⟩
  | ok v => exact Or.inr ⟨v, rfl⟩

theorem informationContent_ok {logFn : ℚ → ℚ} {eng : Engine} {start : ℕ}
    {endOpt : Option ℕ} {efft : Option (List (Char × ℚ))} {logBase : ℚ}
    {charsOpt : Option (List Char)} {pseudo : ℚ} {eng' : Engine} {t : ℚ}
    (h : informationContent logFn eng start endOpt efft logBase charsOpt
      pseudo = (eng', .ok t)) :
    icCore logFn eng.align start endOpt efft logBase charsOpt pseudo =
      .ok (t, eng'.icVector) ∧ eng'.align = eng.align := by
  unfold informationContent at h
  cases hic : icCore logFn eng.align start endOpt efft logBase charsOpt
      pseudo with
  | error e =>
    rw [hic] at h
    have h2 : (Except.error e : Except Err ℚ) = .ok t :=
      congrArg Prod.snd h
    cases h2
  | ok p =>
    rw [hic] at h
    have h1 : ({ eng with icVector := p.2 } : Engine) = eng' :=
      congrArg Prod.fst h
    have h2 : (Except.ok p.1 : Except Err ℚ) = .ok t :=
      congrArg Prod.snd h
    have ht : p.1 = t := Except.ok.inj h2
    rw [← h1]
    exact ⟨by rw [← ht], rfl⟩

theorem informationContent_error_frame {logFn : ℚ → ℚ} {eng : Engine}
    {start : ℕ} {endOpt : Option ℕ} {efft : Option (List (Char × ℚ))}
    {logBase : ℚ} {charsOpt : Option (List Char)} {pseudo : ℚ} {e : Err}
    (h : (informationContent logFn eng start endOpt efft logBase charsOpt
      pseudo).2 = .error e) :
    (informationContent logFn eng start endOpt efft logBase charsOpt
      pseudo).1 = eng := by
  unfold informationContent at h ⊢
  rcases exceptCases (icCore logFn eng.align start endOpt efft logBase
      charsOpt pseudo) with ⟨e', hic⟩ | ⟨p, hic⟩
  · rw [hic]
  · rw [hic] at h
    have h' : (Except.ok p.1 : Except Err ℚ) = .error e := h
    cases h'

theorem icCore_ok_elim {logFn : ℚ → ℚ} {a : Alignment} {start : ℕ}
    {endOpt : Option ℕ} {efft : Option (List (Char × ℚ))} {logBase : ℚ}
    {charsOpt : Option (List Char)} {pseudo : ℚ} {res : ℚ × List ℚ}
    (h : icCore logFn a start endOpt efft logBase charsOpt pseudo =
      .ok res) :
    ∃ re infoList, resolveRandom a efft = .ok re ∧
      icLoop logFn a (resolveLetters a (charsOpt.getD []))
        (charsOpt.getD []) pseudo efft re logBase start
        (effEnd a endOpt) = .ok infoList ∧
      res = icFromList start infoList := by
  unfold icCore at h
  cases hh : a.records.head? with
  | none => rw [hh] at h; cases h
  | some r0 =>
    rw [hh] at h
    have h' : (if r0.seq.length < effEnd a endOpt then
        (Except.error Err.valueError : Except Err (ℚ × List ℚ))
      else match resolveRandom a efft with
        | .error err => .error err
        | .ok randomE =>
          match icLoop logFn a (resolveLetters a (charsOpt.getD []))
              (charsOpt.getD []) pseudo efft randomE logBase start
              (effEnd a endOpt) with
          | .error err => .error err
          | .ok infoList => .ok (icFromList start infoList)) = .ok res := h
    by_cases hlt : r0.seq.length < effEnd a endOpt
    · rw [if_pos hlt] at h'
      cases h'
    · rw [if_neg hlt] at h'
      rcases exceptCases (resolveRandom a efft) with ⟨err, hre⟩ | ⟨re, hre⟩
      · rw [hre] at h'
        cases h'
      · rw [hre] at h'
        have h2 : (match icLoop logFn a
            (resolveLetters a (charsOpt.getD [])) (charsOpt.getD []) pseudo
            efft re logBase start (effEnd a endOpt) with
          | Except.error err => Except.error err
          | Except.ok infoList =>
            Except.ok (icFromList start infoList)) = Except.ok res := h'
        rcases exceptCases (icLoop logFn a
            (resolveLetters a (charsOpt.getD [])) (charsOpt.getD []) pseudo
            efft re logBase start (effEnd a endOpt)) with
          ⟨err, hl⟩ | ⟨infoList, hl⟩
        · rw [hl] at h2
          cases h2
        · rw [hl] at h2
          have h'' : (Except.ok (icFromList start infoList) :
              Except Err (ℚ × List ℚ)) = .ok res := h2
          exact ⟨re, infoList, hre, hl, (Except.ok.inj h'').symm⟩

theorem icLoop_ok_length {logFn : ℚ → ℚ} {a : Alignment}
    {letters chars : List Char} {pseudo : ℚ}
    {efft : Option (List (Char × ℚ))} {re : Option ℚ} {logBase : ℚ}
    {start e : ℕ} {infoList : List (ℕ × ℚ)}
    (h : icLoop logFn a letters chars pseudo efft re logBase start e =
      .ok infoList) : infoList.length = e - start := by
  have h2 := mapE_ok_length h
  simpa using h2

theorem icLoop_ok_get {logFn : ℚ → ℚ} {a : Alignment}
    {letters chars : List Char} {pseudo : ℚ}
    {efft : Option (List (Char × ℚ))} {re : Option ℚ} {logBase : ℚ}
    {start e : ℕ} {infoList : List (ℕ × ℚ)}
    (h : icLoop logFn a letters chars pseudo efft re logBase start e =
      .ok infoList) (i : ℕ) (hi : i < infoList.length) :
    (infoList.get ⟨i, hi⟩).1 = start + i ∧
    icColumnScore logFn a letters chars pseudo efft re logBase (start + i) =
      .ok (infoList.get ⟨i, hi⟩).2 := by
  have hlen := mapE_ok_length h
  have hi' : i < (List.range' start (e - start)).length := by
    rw [← hlen]
    exact hi
  have hget := mapE_ok_get h i hi' hi
  have hr : (List.range' start (e - start)).get ⟨i, hi'⟩ = start + i := by
    simp
  rw [hr] at hget
  cases hcol : icColumnScore logFn a letters chars pseudo efft re logBase
      (start + i) with
  | error err => rw [hcol] at hget; cases hget
  | ok s =>
    rw [hcol] at hget
    have hget' : (Except.ok ((start + i, s) : ℕ × ℚ) :
        Except Err (ℕ × ℚ)) = .ok (infoList.get ⟨i, hi⟩) := hget
    have heq := Except.ok.inj hget'
    constructor
    · rw [← heq]
    · rw [← heq]

theorem lookupN_of_keys :
    ∀ (l : List (ℕ × ℚ)) (start : ℕ),
      (∀ j (hj : j < l.length), (l.get ⟨j, hj⟩).1 = start + j) →
      ∀ i (hi : i < l.length),
        lookupN l (start + i) = some (l.get ⟨i, hi⟩).2 := by
  intro l
  induction l with
  | nil => intro start _ i hi; exact absurd hi (Nat.not_lt_zero i)
  | cons p l ih =>
    intro start hkeys i hi
    have hp : p.1 = start := by
      have := hkeys 0 (Nat.succ_pos l.length)
      simpa using this
    cases i with
    | zero =>
      unfold lookupN
      rw [if_pos (by omega)]
      rfl
    | succ j =>
      unfold lookupN
      rw [if_neg (by omega)]
      have hkeys' : ∀ k (hk : k < l.length),
          (l.get ⟨k, hk⟩).1 = (start + 1) + k := by
        intro k hk
        have := hkeys (k + 1) (by simpa using Nat.succ_lt_succ hk)
        simpa [Nat.add_assoc, Nat.add_comm 1 k] using this
      have := ih (start + 1) hkeys' j (Nat.lt_of_succ_lt_succ hi)
      rw [show start + (j + 1) = (start + 1) + j by omega]
      rw [this]
      rfl

/-! ## Claim C7 -/

/-- Claim C7: after every successful `information_content(start, end, ...)`
call the engine's `ic_vector` has exactly `end - start` entries and entry
`i` holds the information-content score of column `start + i`; in
particular a call over the whole range leaves `alignment_length` entries. -/
theorem claim7_thm (logFn : ℚ → ℚ) (eng : Engine) (start : ℕ)
    (endOpt : Option ℕ) (efft : Option (List (Char × ℚ))) (logBase : ℚ)
    (charsOpt : Option (List Char)) (pseudo : ℚ) (eng' : Engine) (t : ℚ)
    (h : informationContent logFn eng start endOpt efft logBase charsOpt
      pseudo = (eng', .ok t)) :
    eng'.icVector.length = effEnd eng.align endOpt - start ∧
    ∃ re, resolveRandom eng.align efft = .ok re ∧
      ∀ i (hi : i < eng'.icVector.length),
        icColumnScore logFn eng.align
          (resolveLetters eng.align (charsOpt.getD []))
          (charsOpt.getD []) pseudo efft re logBase (start + i) =
        .ok (eng'.icVector.get ⟨i, hi⟩) := by
  rcases informationContent_ok h with ⟨hic, -⟩
  rcases icCore_ok_elim hic with ⟨re, infoList, hre, hloop, hres⟩
  have hveq : eng'.icVector =
      (List.range infoList.length).map
        (fun i => (lookupN infoList (i + start)).getD 0) := by
    have := congrArg Prod.snd hres
    simpa [icFromList] using this
  have hlen : eng'.icVector.length = infoList.length := by
    rw [hveq]
    simp
  have hkeys : ∀ j (hj : j < infoList.length),
      (infoList.get ⟨j, hj⟩).1 = start + j :=
    fun j hj => (icLoop_ok_get hloop j hj).1
  refine ⟨by rw [hlen, icLoop_ok_length hloop], re, hre, ?_⟩
  intro i hi
  have hi' : i < infoList.length := by rw [← hlen]; exact hi
  have hv : eng'.icVector.get ⟨i, hi⟩ = (infoList.get ⟨i, hi'⟩).2 := by
    have hmap := List.get_of_eq hveq ⟨i, hi⟩
    simp at hmap
    rw [List.get_eq_getElem, hmap, Nat.add_comm i start,
      lookupN_of_keys infoList start hkeys i hi']
    rfl
  rw [hv]
  exact (icLoop_ok_get hloop i hi').2



/-- Witness for C7: a successful whole-range call on `exAA` leaves an
`ic_vector` of length 2. -/
theorem claim7_witness :
    (informationContent (fun _ => (1 : ℚ)) ⟨exAA, []⟩ 0 none none 2 none 0 =
      ((⟨exAA, [1, 1]⟩ : Engine), .ok 2)) ∧
    ((⟨exAA, [1, 1]⟩ : Engine)).icVector.length = effEnd exAA none - 0 := by
  have h : informationContent (fun _ => (1 : ℚ)) ⟨exAA, []⟩ 0 none none 2
      none 0 = ((⟨exAA, [1, 1]⟩ : Engine), .ok 2) := by
    with_unfolding_all decide
  exact ⟨h, (claim7_thm (fun _ => (1 : ℚ)) ⟨exAA, []⟩ 0 none none 2 none 0
    ⟨exAA, [1, 1]⟩ 2 h).1⟩

/-! ## Claim C5 -/



theorem getLetterFreqs_ok_count {recs : List Rec} {n : ℕ}
    {letters toIgnore : List Char} {pseudo : ℚ}
    {efft : Option (List (Char × ℚ))} {re : Option ℚ} {gc : Char}
    {f : List (Char × ℚ)}
    (h : getLetterFreqs recs n letters toIgnore pseudo efft re gc = .ok f) :
    ∃ ft, freqCountLoop recs n toIgnore (getBaseLetters letters) = .ok ft := by
  unfold getLetterFreqs at h
  by_cases hps : pseudo < 0
  · rw [if_pos hps] at h
    cases h
  · rw [if_neg hps] at h
    rcases exceptCases (freqCountLoop recs n toIgnore
      (getBaseLetters letters)) with ⟨e, hc⟩ | ⟨ft, hc⟩
    · rw [hc] at h
      cases h
    · exact ⟨ft, hc⟩

theorem freqCountLoop_ok_long {recs : List Rec} {n : ℕ}
    {toIgnore : List Char} {freq0 : List (Char × ℚ)}
    {res : List (Char × ℚ) × ℚ}
    (h : freqCountLoop recs n toIgnore freq0 = .ok res) :
    ∀ r ∈ recs, n < r.seq.length := by
  refine foldlE_ok_of_mem (fun r => n < r.seq.length) ?_ h
  intro s r hr
  by_cases hn : n < r.seq.length
  · exact hn
  · exfalso
    rcases hr with ⟨s', hs'⟩
    rw [dif_neg hn] at hs'
    cases hs'

theorem icColumnScore_ok_long {logFn : ℚ → ℚ} {a : Alignment}
    {letters chars : List Char} {pseudo : ℚ}
    {efft : Option (List (Char × ℚ))} {re : Option ℚ} {logBase : ℚ} {n : ℕ}
    {q : ℚ}
    (h : icColumnScore logFn a letters chars pseudo efft re logBase n =
      .ok q) : ∀ r ∈ a.records, n < r.seq.length := by
  unfold icColumnScore at h
  rcases exceptCases (getLetterFreqs a.records n letters chars pseudo efft
    re (getGapChar a)) with ⟨e, hf⟩ | ⟨f, hf⟩
  · rw [hf] at h
    cases h
  · rcases getLetterFreqs_ok_count hf with ⟨ft, hc⟩
    exact freqCountLoop_ok_long hc

theorem tallyColumn_skips_short (recs : List Rec) (n : ℕ) (g : Bool) :
    tallyColumn recs n g =
      tallyColumn (recs.filter (fun r => decide (n < r.seq.length))) n g := by
  unfold tallyColumn
  have key : ∀ (l : List Rec) (acc : List (Char × ℕ) × ℕ),
      l.foldl (tallyStep n g) acc =
        (l.filter (fun r => decide (n < r.seq.length))).foldl
          (tallyStep n g) acc := by
    intro l
    induction l with
    | nil => intro acc; rfl
    | cons r l ih =>
      intro acc
      rw [List.foldl_cons, List.filter_cons]
      by_cases hn : n < r.seq.length
      · rw [if_pos (by simpa using hn), List.foldl_cons]
        exact ih (tallyStep n g acc r)
      · rw [if_neg (by simpa using hn)]
        have hstep : tallyStep n g acc r = acc := by
          unfold tallyStep
          rw [dif_neg hn]
        rw [hstep]
        exact ih acc
  exact key recs ([], 0)

theorem pssmColumn_skips_short (n : ℕ) (ignore : List Char) :
    ∀ (recs : List Rec) (d : List (Char × ℚ)),
      pssmColumn recs n ignore d =
        pssmColumn (recs.filter (fun r => decide (n < r.seq.length))) n
          ignore d := by
  intro recs
  induction recs with
  | nil => intro d; rfl
  | cons r recs ih =>
    intro d
    have hcons : ∀ (l : List Rec) (d0 : List (Char × ℚ)),
        pssmColumn (r :: l) n ignore d0 =
          (match pssmStep n ignore d0 r with
          | .ok d' => pssmColumn l n ignore d'
          | .error e => .error e) := by
      intro l d0
      unfold pssmColumn
      simp only [foldlE]
      rcases exceptCases (pssmStep n ignore d0 r) with ⟨e, hs⟩ | ⟨d', hs⟩ <;>
        rw [hs]
    rw [List.filter_cons]
    by_cases hn : n < r.seq.length
    · rw [if_pos (by simpa using hn), hcons recs d, hcons _ d]
      rcases exceptCases (pssmStep n ignore d r) with ⟨e, hs⟩ | ⟨d', hs⟩
      · rw [hs]
      · rw [hs]
        show pssmColumn recs n ignore d' = _
        exact ih d'
    · rw [if_neg (by simpa using hn), hcons recs d]
      have hstep : pssmStep n ignore d r = .ok d := by
        unfold pssmStep
        rw [dif_neg hn]
      rw [hstep]
      show pssmColumn recs n ignore d = _
      exact ih d

/-- Claim C5 counterexample: on the alignment `["AA", "A"]`,
`information_content` over the default whole range raises an `IndexError`
at column 1 (the short record is indexed inside a `try` that catches only
`KeyError`), while `dumb_consensus` on the same alignment succeeds —
contradicting the claim that every engine operation treats a short record
as absent. -/
theorem claim5_counterexample :
    (informationContent (fun _ => (1 : ℚ)) ⟨exAA1, []⟩ 0 none none 2 none
      0).2 = .error .indexError ∧
    dumbConsensus exAA1 (7 / 10) 'X' true false = .ok ['A', 'A'] := by
  constructor
  · with_unfolding_all decide
  · with_unfolding_all decide

/-- Claim C5 (amended): the consensus builders and
`pos_specific_score_matrix` skip a record shorter than the column (their
per-column loops only depend on the long-enough records), but
`information_content` does not tolerate such records: it can only succeed
when every record reaches past every iterated column (a short record
raises an uncaught `IndexError` in `_get_letter_freqs`). -/
theorem claim5_thm :
    (∀ (recs : List Rec) (n : ℕ) (g : Bool),
      tallyColumn recs n g =
        tallyColumn (recs.filter (fun r => decide (n < r.seq.length)))
          n g) ∧
    (∀ (recs : List Rec) (n : ℕ) (ignore : List Char)
      (d : List (Char × ℚ)),
      pssmColumn recs n ignore d =
        pssmColumn (recs.filter (fun r => decide (n < r.seq.length))) n
          ignore d) ∧
    (∀ (logFn : ℚ → ℚ) (eng : Engine) (start : ℕ) (endOpt : Option ℕ)
      (efft : Option (List (Char × ℚ))) (logBase : ℚ)
      (charsOpt : Option (List Char)) (pseudo : ℚ) (t : ℚ),
      (informationContent logFn eng start endOpt efft logBase charsOpt
        pseudo).2 = .ok t →
      ∀ n, start ≤ n → n < effEnd eng.align endOpt →
        ∀ r ∈ eng.align.records, n < r.seq.length) := by
  refine ⟨tallyColumn_skips_short, ?_, ?_⟩
  · intro recs n ignore d
    exact pssmColumn_skips_short n ignore recs d
  · intro logFn eng start endOpt efft logBase charsOpt pseudo t h n hs he
    have hok : ∃ eng', informationContent logFn eng start endOpt efft
        logBase charsOpt pseudo = (eng', .ok t) := by
      refine ⟨(informationContent logFn eng start endOpt efft logBase
        charsOpt pseudo).1, ?_⟩
      rw [Prod.ext_iff]
      exact ⟨rfl, h⟩
    rcases hok with ⟨eng', hok⟩
    rcases informationContent_ok hok with ⟨hic, -⟩
    rcases icCore_ok_elim hic with ⟨re, infoList, hre, hloop, -⟩
    have hn : n ∈ List.range' start (effEnd eng.align endOpt - start) := by
      rw [List.mem_range'_1]
      omega
    rcases mapE_ok_of_mem hloop n hn with ⟨p, hp⟩
    rcases exceptCases (icColumnScore logFn eng.align
        (resolveLetters eng.align (charsOpt.getD [])) (charsOpt.getD [])
        pseudo efft re logBase n) with ⟨e, hcol⟩ | ⟨q, hcol⟩
    · rw [hcol] at hp
      cases hp
    · exact icColumnScore_ok_long hcol

/-- Witness for the amended C5: the successful whole-range call on `exAA`
implies column 1 lies within the record. -/
theorem claim5_witness :
    ((informationContent (fun _ => (1 : ℚ)) ⟨exAA, []⟩ 0 none none 2 none
      0).2 = .ok 2) ∧
    (∀ r ∈ exAA.records, 1 < r.seq.length) := by
  have h : (informationContent (fun _ => (1 : ℚ)) ⟨exAA, []⟩ 0 none none 2
      none 0).2 = .ok 2 := by
    with_unfolding_all decide
  refine ⟨h, ?_⟩
  intro r hr
  exact claim5_thm.2.2 (fun _ => (1 : ℚ)) ⟨exAA, []⟩ 0 none none 2 none 0 2
    h 1 (by omega) (by with_unfolding_all decide) r hr

/-! ## Claim C6 -/

/-- Claim C6 counterexample: `information_content(start=0, end=0,
pseudo_count=-1)` passes the bounds check, runs an empty column loop, never
reaches the negative-pseudo-count check in `_get_letter_freqs`, and returns
`0.0` — no error is raised. -/
theorem claim6_counterexample :
    (informationContent (fun _ => (1 : ℚ)) ⟨exSingleA, []⟩ 0 (some 0) none 2
      none (-1)).2 = .ok 0 := by
  with_unfolding_all decide

theorem resolveRandom_error {a : Alignment} {efft : Option (List (Char × ℚ))}
    {e : Err} (h : resolveRandom a efft = .error e) : e = .valueError := by
  unfold resolveRandom at h
  by_cases ht : tblTruthy efft = true
  · rw [if_pos ht] at h
    cases h
  · rw [if_neg ht] at h
    cases hk : a.alph.kind with
    | protein => rw [hk] at h; cases h
    | nucleotide => rw [hk] at h; cases h
    | other => rw [hk] at h; exact (Except.error.inj h).symm

/-- Claim C6 (amended): every `information_content` call on a nonempty
alignment with `pseudo_count < 0` whose validated column range is nonempty
raises a `ValueError` and returns no result.  (With an empty column range
the negative-pseudo-count check in `_get_letter_freqs` is never reached,
so the negative pseudo-count itself raises nothing: e.g. on a nucleotide
alignment, `information_content(start=0, end=0, pseudo_count=-1)` returns
`0.0` — see the counterexample.) -/
theorem claim6_thm (logFn : ℚ → ℚ) (eng : Engine) (start : ℕ)
    (endOpt : Option ℕ) (efft : Option (List (Char × ℚ))) (logBase : ℚ)
    (charsOpt : Option (List Char)) (pseudo : ℚ)
    (hrec : eng.align.records ≠ [])
    (hps : pseudo < 0)
    (hrange : start < effEnd eng.align endOpt) :
    (informationContent logFn eng start endOpt efft logBase charsOpt
      pseudo).2 = .error .valueError := by
  have hcore : icCore logFn eng.align start endOpt efft logBase charsOpt
      pseudo = .error .valueError := by
    unfold icCore
    cases hh : eng.align.records with
    | nil => exact absurd hh hrec
    | cons r0 rest =>
      show (if r0.seq.length < effEnd eng.align endOpt then
          (Except.error Err.valueError : Except Err (ℚ × List ℚ))
        else match resolveRandom eng.align efft with
          | .error err => .error err
          | .ok randomE =>
            match icLoop logFn eng.align
                (resolveLetters eng.align (charsOpt.getD []))
                (charsOpt.getD []) pseudo efft randomE logBase start
                (effEnd eng.align endOpt) with
            | .error err => .error err
            | .ok infoList => .ok (icFromList start infoList)) =
        .error .valueError
      by_cases hlt : r0.seq.length < effEnd eng.align endOpt
      · rw [if_pos hlt]
      · rw [if_neg hlt]
        rcases exceptCases (resolveRandom eng.align efft) with
          ⟨err, hre⟩ | ⟨re, hre⟩
        · rw [hre, resolveRandom_error hre]
        · rw [hre]
          have hloop : icLoop logFn eng.align
              (resolveLetters eng.align (charsOpt.getD []))
              (charsOpt.getD []) pseudo efft re logBase start
              (effEnd eng.align endOpt) = .error .valueError := by
            unfold icLoop
            have hn : effEnd eng.align endOpt - start =
                (effEnd eng.align endOpt - start - 1) + 1 := by omega
            rw [hn, List.range'_succ start _ 1]
            unfold mapE
            have hscore : icColumnScore logFn eng.align
                (resolveLetters eng.align (charsOpt.getD []))
                (charsOpt.getD []) pseudo efft re logBase start =
                .error .valueError := by
              unfold icColumnScore getLetterFreqs
              rw [if_pos hps]
            rw [hscore]
          show (match icLoop logFn eng.align
              (resolveLetters eng.align (charsOpt.getD []))
              (charsOpt.getD []) pseudo efft re logBase start
              (effEnd eng.align endOpt) with
            | Except.error err => Except.error err
            | Except.ok infoList => Except.ok (icFromList start infoList)) =
            Except.error Err.valueError
          rw [hloop]
  unfold informationContent
  rw [hcore]

/-- Witness for the amended C6: a nonempty range with `pseudo_count = -1`
raises. -/
theorem claim6_witness :
    (exSingleA.records ≠ []) ∧ ((-1 : ℚ) < 0) ∧ (0 < effEnd exSingleA none) ∧
    (informationContent (fun _ => (1 : ℚ)) ⟨exSingleA, []⟩ 0 none none 2
      none (-1)).2 = .error .valueError := by
  refine ⟨?_, ?_, ?_, ?_⟩
  · with_unfolding_all decide
  · with_unfolding_all decide
  · with_unfolding_all decide
  · exact claim6_thm (fun _ => (1 : ℚ)) ⟨exSingleA, []⟩ 0 none none 2 none
      (-1) (by with_unfolding_all decide) (by with_unfolding_all decide)
      (by with_unfolding_all decide)

/-! ## Claim C8 -/

/-- Claim C8 counterexample: a first, successful `information_content` call
on `["AA", "A"]` over `[0, 1)` populates `ic_vector = [1]`; a second call
over the default whole range fails with an `IndexError` — and the engine
still holds the previous call's nonempty `ic_vector`, because the reset
`self.ic_vector = []` only happens after the column loop.  This refutes the
claim that the vector is reset at the start of the call. -/
theorem claim8_counterexample :
    (informationContent (fun _ => (1 : ℚ)) ⟨exAA1, []⟩ 0 (some 1) none 2
      none 0) = ((⟨exAA1, [1]⟩ : Engine), .ok 1) ∧
    (informationContent (fun _ => (1 : ℚ)) ⟨exAA1, [1]⟩ 0 none none 2 none
      0) = ((⟨exAA1, [1]⟩ : Engine), .error .indexError) ∧
    ([1] : List ℚ) ≠ [] := by
  refine ⟨?_, ?_, ?_⟩
  · with_unfolding_all decide
  · with_unfolding_all decide
  · with_unfolding_all decide

/-- Claim C8 (amended): `information_content` overwrites the cached
`ic_vector` only on success; a call that raises leaves the engine — and so
the `ic_vector` of a previous successful call — unchanged. -/
theorem claim8_thm (logFn : ℚ → ℚ) (eng : Engine) (start : ℕ)
    (endOpt : Option ℕ) (efft : Option (List (Char × ℚ))) (logBase : ℚ)
    (charsOpt : Option (List Char)) (pseudo : ℚ) (e : Err)
    (h : (informationContent logFn eng start endOpt efft logBase charsOpt
      pseudo).2 = .error e) :
    (informationContent logFn eng start endOpt efft logBase charsOpt
      pseudo).1 = eng :=
  informationContent_error_frame h

/-- Witness for the amended C8 at the concrete failing second call of the
counterexample scenario. -/
theorem claim8_witness :
    ((informationContent (fun _ => (1 : ℚ)) ⟨exAA1, [1]⟩ 0 none none 2 none
      0).2 = .error .indexError) ∧
    (informationContent (fun _ => (1 : ℚ)) ⟨exAA1, [1]⟩ 0 none none 2 none
      0).1 = (⟨exAA1, [1]⟩ : Engine) := by
  have h : (informationContent (fun _ => (1 : ℚ)) ⟨exAA1, [1]⟩ 0 none none 2
      none 0).2 = .error .indexError := by
    with_unfolding_all decide
  exact ⟨h, claim8_thm (fun _ => (1 : ℚ)) ⟨exAA1, [1]⟩ 0 none none 2 none 0
    .indexError h⟩

/-! ## Claim C9 -/



/-- Claim C9 counterexample: with a gapped alphabet,
`pos_specific_score_matrix` and `replacement_dictionary` append the gap
character to the very list object the caller passed as `chars_to_ignore` /
`skip_chars`: a caller-supplied empty list is `['-']` after the call.  The
operations are therefore not pure in their caller-visible state. -/
theorem claim9_counterexample :
    (posSpecificScoreMatrix exGapped none (some [])).2 = some ['-'] ∧
    some ['-'] ≠ some ([] : List Char) ∧
    (replacementDictionary exGapped (some [])).2 = some ['-'] := by
  refine ⟨?_, ?_, ?_⟩
  · with_unfolding_all decide
  · with_unfolding_all decide
  · with_unfolding_all decide

/-- Claim C9 (amended): `pos_specific_score_matrix` and
`replacement_dictionary` mutate a caller-supplied `chars_to_ignore` /
`skip_chars` list by appending the gap character exactly when the
alignment's alphabet is gapped (for the PSSM, only once its
nonempty-letters assertion has passed); with no caller-supplied list there
is no caller-visible mutation, and only `information_content` mutates the
engine's cached `ic_vector`. -/
theorem claim9_thm (a : Alignment) (ax : Option (List Char))
    (l : List Char) :
    ((posSpecificScoreMatrix a ax (some l)).2 =
      some (if getAllLetters a = [] then l
        else if a.alph.gapped then l ++ [a.alph.gapChar] else l)) ∧
    ((replacementDictionary a (some l)).2 =
      some (if a.alph.gapped then l ++ [a.alph.gapChar] else l)) ∧
    ((posSpecificScoreMatrix a ax none).2 = none) ∧
    ((replacementDictionary a none).2 = none) := by
  refine ⟨?_, ?_, ?_, ?_⟩
  · unfold posSpecificScoreMatrix
    by_cases hL : getAllLetters a = []
    · rw [if_pos hL, if_pos hL]
    · rw [if_neg hL, if_neg hL]
      rcases exceptCases (match ax with
        | some axs =>
          if axs.length = a.alignLength then Except.ok axs
          else Except.error Err.assertionError
        | none => dumbConsensus a (7 / 10) 'X' false false) with
        ⟨e, hx⟩ | ⟨ls, hx⟩
      · rw [hx]
        by_cases hg : a.alph.gapped = true
        · simp [hg]
        · simp [hg]
      · rw [hx]
        by_cases hg : a.alph.gapped = true
        · simp [hg]
        · simp [hg]
  · unfold replacementDictionary getBaseReplacements
    by_cases hg : a.alph.gapped = true
    · simp [hg]
    · simp [hg]
  · unfold posSpecificScoreMatrix
    by_cases hL : getAllLetters a = []
    · rw [if_pos hL]
    · rw [if_neg hL]
      rcases exceptCases (match ax with
        | some axs =>
          if axs.length = a.alignLength then Except.ok axs
          else Except.error Err.assertionError
        | none => dumbConsensus a (7 / 10) 'X' false false) with
        ⟨e, hx⟩ | ⟨ls, hx⟩
      · rw [hx]
        rfl
      · rw [hx]
        rfl
  · unfold replacementDictionary getBaseReplacements
    rfl

end AlignInfo
